import Mathlib

/-!
# MapRelay: the server session, checked against its specification

A shallow embedding of `server/config.go`, `server/presets.go`,
`server/server.go` and of the receive loop of `client/client.go`.  Go strings are modelled by `String` (sequences of
characters, i.e. valid UTF-8 text); the few functions of Go's `strings` and
`path/filepath` packages the server calls are modelled on the character list,
`path/filepath` in its Unix flavour (separator `/`).
-/

namespace MapRelay

/-! ## Go `strings` -/

namespace Chars

/-- Worker of `replaceAll` for a non-empty `old`: `skip` counts the characters of
the current match that are still to be dropped. -/
def replaceGo (old new : List Char) : Nat → List Char → List Char
  | _, [] => []
  | skip + 1, _ :: cs => replaceGo old new skip cs
  | 0, c :: cs =>
    if old.isPrefixOf (c :: cs) then new ++ replaceGo old new (old.length - 1) cs
    else c :: replaceGo old new 0 cs

/-- Go `strings.ReplaceAll` on characters: the non-overlapping occurrences of `old`
are replaced from the left; an empty `old` matches before every character and at
the end. -/
def replaceAll (s old new : List Char) : List Char :=
  if old = [] then new ++ s.flatMap (fun c => c :: new)
  else replaceGo old new 0 s

/-- Go `strings.TrimLeft`: drop the leading characters that belong to `cutset`. -/
def trimLeft (s cutset : List Char) : List Char :=
  s.dropWhile (fun c => cutset.contains c)

/-- Go `strings.TrimRight`: drop the trailing characters that belong to `cutset`. -/
def trimRight (s cutset : List Char) : List Char :=
  (s.reverse.dropWhile (fun c => cutset.contains c)).reverse

/-- Position of the last occurrence of the character `c`, if there is one
(Go `strings.LastIndex` with a one-character needle, `none` for `-1`). -/
def lastIndex : List Char → Char → Option Nat
  | [], _ => none
  | x :: xs, c =>
    match lastIndex xs c with
    | some i => some (i + 1)
    | none => if x = c then some 0 else none

end Chars

/-- Go `strings.ReplaceAll`. -/
def replaceAll (s old new : String) : String :=
  ⟨Chars.replaceAll s.data old.data new.data⟩

/-- Go `strings.HasPrefix`. -/
def hasPrefix (s pre : String) : Bool := pre.data.isPrefixOf s.data

/-- Go `strings.HasSuffix`. -/
def hasSuffix (s suf : String) : Bool := suf.data.isSuffixOf s.data

/-- Go `strings.ToLower`, character by character.  Only the ASCII letters are mapped;
no other character lowers to one of `.`, `e`, `x`, the only characters the server
compares the result with. -/
def toLower (s : String) : String := ⟨s.data.map Char.toLower⟩

/-- Go `strings.TrimLeft`. -/
def trimLeft (s cutset : String) : String := ⟨Chars.trimLeft s.data cutset.data⟩

/-- Go `strings.TrimRight`. -/
def trimRight (s cutset : String) : String := ⟨Chars.trimRight s.data cutset.data⟩

/-! ## Go `path/filepath` (Unix) -/

namespace Chars

/-- The elements of a path: the pieces between the separators (possibly empty). -/
def splitSep : List Char → List (List Char)
  | [] => [[]]
  | c :: cs =>
    if c = '/' then [] :: splitSep cs
    else match splitSep cs with
      | [] => [[c]]
      | h :: t => (c :: h) :: t

/-- One element of the lexical clean-up of `filepath.Clean`; `stack` holds the
elements kept so far, the last one first.  Empty and `.` elements are dropped, a
`..` removes the element before it, is dropped at the root, and is kept after
another kept `..` or at the start of a relative path. -/
def cleanStep (rooted : Bool) (stack : List (List Char)) (e : List Char) :
    List (List Char) :=
  if e = [] ∨ e = ['.'] then stack
  else if e = ['.', '.'] then
    match stack with
    | top :: rest => if top = ['.', '.'] then e :: stack else rest
    | [] => if rooted then [] else [e]
  else e :: stack

/-- The elements of a path put together again, with a separator between them. -/
def joinSep : List (List Char) → List Char
  | [] => []
  | [x] => x
  | x :: y :: rest => x ++ '/' :: joinSep (y :: rest)

/-- Go `filepath.Clean`. -/
def clean (p : List Char) : List Char :=
  let rooted := ['/'].isPrefixOf p
  let kept := ((splitSep p).foldl (cleanStep rooted) []).reverse
  let out := (if rooted then ['/'] else []) ++ joinSep kept
  if out = [] then ['.'] else out

/-- Go `filepath.IsAbs`. -/
def isAbs (p : List Char) : Bool := ['/'].isPrefixOf p

/-- Go `filepath.Join`: the elements from the first non-empty one on are joined with
the separator and cleaned; the result is empty when every element is empty. -/
def join : List (List Char) → List Char
  | [] => []
  | e :: es => if e = [] then join es else clean (joinSep (e :: es))

/-- Go `filepath.Base`: the last element of the path, after the trailing separators are
removed; `.` for the empty path and `/` for a path of separators only. -/
def base (p : List Char) : List Char :=
  if p = [] then ['.']
  else
    let q := trimRight p ['/']
    let b := (q.reverse.takeWhile (fun c => c ≠ '/')).reverse
    if b = [] then ['/'] else b

/-- Go `filepath.Dir`: everything up to and including the last separator, cleaned. -/
def dir (p : List Char) : List Char :=
  clean (p.reverse.dropWhile (fun c => c ≠ '/')).reverse

end Chars

/-- Go `filepath.Clean`. -/
def filepathClean (p : String) : String := ⟨Chars.clean p.data⟩

/-- Go `filepath.IsAbs`. -/
def filepathIsAbs (p : String) : Bool := Chars.isAbs p.data

/-- Go `filepath.Join`. -/
def filepathJoin (elem : List String) : String := ⟨Chars.join (elem.map String.data)⟩

/-- Go `filepath.Base`. -/
def filepathBase (p : String) : String := ⟨Chars.base p.data⟩

/-- Go `filepath.Dir`. -/
def filepathDir (p : String) : String := ⟨Chars.dir p.data⟩

/-- Go `filepath.Abs`: an absolute path is cleaned, a relative one is joined to the
working directory; `getwd` is the outcome of `os.Getwd`, `none` when it fails, and
then `filepath.Abs` fails too. -/
def filepathAbs (getwd : Option String) (p : String) : Option String :=
  if filepathIsAbs p then some (filepathClean p)
  else match getwd with
    | some wd => some (filepathJoin [wd, p])
    | none => none

/-! ## Go `encoding/base64` -/

/-- The alphabet of `base64.StdEncoding`. -/
def base64Alphabet : List Char :=
  "ABCDEFGHIJKLMNOPQRSTUVWXYZabcdefghijklmnopqrstuvwxyz0123456789+/".data

/-- The character of a six-bit group. -/
def base64Char (n : Nat) : Char := base64Alphabet.getD (n % 64) 'A'

/-- The padded encoding of `base64.StdEncoding`, three bytes at a time. -/
def base64Chars : List Nat → List Char
  | [] => []
  | [a] => [base64Char (a / 4), base64Char (a % 4 * 16), '=', '=']
  | [a, b] => [base64Char (a / 4), base64Char (a % 4 * 16 + b / 16), base64Char (b % 16 * 4), '=']
  | a :: b :: c :: rest =>
    base64Char (a / 4) :: base64Char (a % 4 * 16 + b / 16) :: base64Char (b % 16 * 4 + c / 64)
      :: base64Char (c % 64) :: base64Chars rest

/-- Go `base64.StdEncoding.EncodeToString`. -/
def base64Encode (b : List UInt8) : String := ⟨base64Chars (b.map UInt8.toNat)⟩

/-! ## Data model (`config.go`, `presets.go`, `server.go`) -/

/-- A Go `map[string]V`, as the list of its bindings; a key is read at its first
binding.  The order of the list stands for the order in which a `range` over the
map happens to visit it. -/
abbrev GoMap (β : Type) := List (String × β)

/-- The two-valued read `v, ok := m[k]`. -/
def GoMap.get? {β : Type} (m : GoMap β) (k : String) : Option β := m.lookup k

/-- The read `m[k]` of a string map: the empty string when `k` is not a key. -/
def GoMap.get (m : GoMap String) (k : String) : String := (m.lookup k).getD ""

/-- The assignment `m[k] = v`. -/
def GoMap.set {β : Type} : GoMap β → String → β → GoMap β
  | [], k, v => [(k, v)]
  | (k', v') :: rest, k, v =>
    if k' = k then (k, v) :: rest else (k', v') :: GoMap.set rest k v

/-- The keys of the map. -/
def GoMap.keys {β : Type} (m : GoMap β) : List String := m.map Prod.fst

/-- Type `Config` of `config.go`. -/
structure Config where
  Password : String
  Programs : GoMap String
  BaseGamePath : String
  WinePath : String
  GameDir : String
  ExeDir : String
  BspDir : String
  TmpDir : String

/-- Type `Step` of `presets.go`. -/
structure Step where
  Program : String
  Args : List String
  deriving DecidableEq, Repr

/-- Type `Preset` of `presets.go`. -/
structure Preset where
  Name : String
  Steps : List Step
  deriving DecidableEq, Repr

/-- Type `presetStore` of `presets.go`: the table `list`, and in `saved` what the
presets file holds (`none` until it is first written). -/
structure PresetStore where
  list : GoMap Preset
  saved : Option (List Preset)

/-- Type `compileRequest` of `server.go`, as decoded from the first message. -/
structure CompileRequest where
  VMF : String
  VMFName : String
  VMFData : List UInt8
  Preset : String
  Password : String

/-- What the session writes to the peer, one constructor per form of write in
`handleSocket`: `text` is `conn.WriteMessage(websocket.TextMessage, s)`, `bsp` the
`conn.WriteJSON(bspMsg ...)`, and the others are `sendJSON(t, m)` with `t` the
literal `"info"`, `"error"`, `"step_done"`, `"done"`, or the step's program key for
a line of captured output. -/
inductive Msg where
  | text (s : String)
  | info (message : String)
  | error (message : String)
  | output (program line : String)
  | stepDone (program : String)
  | bsp (name data : String)
  | done
  deriving DecidableEq, Repr

/-- A frame on the wire: a plain text, or a JSON object given by its members. -/
inductive Frame where
  | plain (s : String)
  | object (members : List (String × String))
  deriving DecidableEq, Repr

/-- The frame of a message: `wsMessage` and `bspMsg` with their JSON member names. -/
def Msg.wire : Msg → Frame
  | .text s => .plain s
  | .info m => .object [("type", "info"), ("message", m)]
  | .error m => .object [("type", "error"), ("message", m)]
  | .output program line => .object [("type", program), ("message", line)]
  | .stepDone program => .object [("type", "step_done"), ("message", program)]
  | .bsp name data => .object [("type", "bsp"), ("name", name), ("data", data)]
  | .done => .object [("type", "done"), ("message", "")]

/-- The value of the `type` member of a frame, when it is an object that has one. -/
def Frame.kind : Frame → Option String
  | .plain _ => none
  | .object members => members.lookup "type"

/-- A command as handed to `exec.Command`, with its working directory and whether
`WINEDEBUG=-all` was added to the environment. -/
structure Cmd where
  name : String
  args : List String
  dir : String
  wineDebug : Bool
  deriving DecidableEq, Repr

/-- What happens to the process of a step. -/
inductive ProcResult where
  | stdoutPipeErr (err : String)
  | stderrPipeErr (err : String)
  | startErr (err : String)
  | ran (lines : List String) (waitErr : Option String)
  deriving DecidableEq, Repr

/-- Everything outside the program that a session depends on. `proc i c` is what
happens to the process of step `i` run as `c` (`lines` are the lines of its two
streams in the order the two readers send them); `stat i path` tells whether
`os.Stat path` succeeds when step `i` resolves its program. -/
structure World where
  goos : String
  getwd : Option String
  tempDir : String
  stat : Nat → String → Bool
  mkdirTemp : Except String String
  writeFile : String → List UInt8 → Option String
  readFile : String → Except String (List UInt8)
  marshal : List String → String
  proc : Nat → Cmd → ProcResult

/-! ## `config.go` and `presets.go` -/

/-- Function `CheckPassword` of `config.go`; `none` is the `nil` error. -/
def CheckPassword (config : Config) (provided : String) : Option String :=
  if config.Password = "" then none
  else if provided ≠ config.Password then some "unauthorized"
  else none

/-- Function `savePresets` of `presets.go`: the presets of the table are written to the
presets file; `writeErr` is the outcome of `os.WriteFile`, which is also the result. -/
def savePresets (writeErr : Option String) (st : PresetStore) : Option String × PresetStore :=
  match writeErr with
  | some e => (some e, st)
  | none => (none, { st with saved := some (st.list.map Prod.snd) })

/-- Function `setPreset` of `presets.go`, with the error it returns (`none` for `nil`)
and the store it leaves. -/
def setPreset (config : Config) (writeErr : Option String) (p : Preset) (st : PresetStore) :
    Option String × PresetStore :=
  if p.Name = "" then (some "preset name required", st)
  else
    match p.Steps.find? (fun s => (config.Programs.get? s.Program).isNone) with
    | some s => (some ("unknown program: " ++ s.Program), st)
    | none => savePresets writeErr { st with list := st.list.set p.Name p }

/-- Function `getAllPresets` of `presets.go`. -/
def getAllPresets (st : PresetStore) : List Preset := st.list.map Prod.snd

/-! ## `server.go`: variables, expansion, program resolution -/

/-- Function `buildVarMap` of `server.go`; `getwd` and `osTempDir` are the outcomes of
`os.Getwd` (inside `filepath.Abs`) and `os.TempDir`. -/
def buildVarMap (config : Config) (getwd : Option String) (osTempDir : String)
    (vmf : String) : GoMap String :=
  let abs := match filepathAbs getwd vmf with
    | some a => a
    | none => vmf
  let dir := trimRight (filepathDir abs) "/"
  let base := filepathBase abs
  let name := match Chars.lastIndex base.data '.' with
    | some dot => if dot > 0 then String.mk (base.data.take dot) else base
    | none => base
  let gameDir :=
    if config.GameDir ≠ "" ∧ ¬ filepathIsAbs config.GameDir ∧ config.BaseGamePath ≠ "" then
      filepathJoin [config.BaseGamePath, config.GameDir]
    else config.GameDir
  let bspDir := dir
  let exeDir := config.ExeDir
  let tmp := if config.TmpDir ≠ "" then config.TmpDir else osTempDir
  let bsp := filepathJoin [bspDir, name ++ ".bsp"]
  [("$path", dir), ("$mapdir", dir), ("$file", name), ("$name", name), ("$tmp", tmp),
   ("$gamedir", gameDir), ("$game", gameDir), ("$bspdir", bspDir), ("$bsp", bsp),
   ("$exedir", exeDir), ("$vmf", abs)]

/-- The slice `order` of `expandString`. -/
def expandOrder : List String :=
  ["$gamedir", "$bspdir", "$mapdir", "$exedir", "$vmf", "$file", "$name", "$path", "$tmp",
   "$bsp", "$game"]

/-- Function `expandString` of `server.go`: the keys of `order` that the map defines are
replaced in that order, then the other keys of the map in the order of the `range`. -/
def expandString (s : String) (vars : GoMap String) : String :=
  if s = "" then s
  else
    let res := expandOrder.foldl
      (fun res k => match vars.get? k with
        | some v => replaceAll res k v
        | none => res) s
    vars.foldl (fun res kv => if kv.1 ∈ expandOrder then res else replaceAll res kv.1 kv.2) res

/-- Function `expandArgs` of `server.go`. -/
def expandArgs (args : List String) (vars : GoMap String) : List String :=
  args.map (fun a => expandString a vars)

/-- Function `resolveProgramPath` of `server.go`; `stat path` tells whether
`os.Stat path` succeeds. -/
def resolveProgramPath (config : Config) (stat : String → Bool) (p : String) : String :=
  if p = "" then p
  else
    let norm := replaceAll p "\\" "/"
    if filepathIsAbs norm ∧ stat norm then norm
    else
      let base := config.BaseGamePath
      if base = "" then norm
      else if ¬ filepathIsAbs norm then filepathJoin [base, norm]
      else filepathJoin [base, trimLeft norm "/\\"]

/-- Function `joinArgs` of `server.go`; `marshal` is `json.Marshal` on a string array. -/
def joinArgs (marshal : List String → String) (a : List String) : String :=
  if a = [] then "" else marshal a

/-! ## `server.go`: the session -/

/-- The test `useWine` of `handleSocket`. -/
def useWine (goos resolvedPath : String) : Bool :=
  goos = "linux" && hasSuffix (toLower resolvedPath) ".exe"

/-- The argument rewriting of `handleSocket` under Wine (the body of its inner loop). -/
def wineArg (a : String) : String :=
  if a.length > 0 ∧ hasPrefix a "/" then
    let repl := replaceAll a "/" "\\"
    let repl := if hasPrefix repl "\\" then String.mk (repl.data.drop 1) else repl
    "Z:\\" ++ repl
  else a

/-- The command name and arguments `handleSocket` builds for a step (`cmdName`,
`cmdArgs`). -/
def commandLine (config : Config) (goos resolvedPath : String) (expanded : List String) :
    String × List String :=
  if useWine goos resolvedPath then
    let wine := if config.WinePath = "" then "wine" else config.WinePath
    (wine, resolvedPath :: expanded.map wineArg)
  else (resolvedPath, expanded)

/-- The command of a step whose program is configured at `progPath`: name, arguments,
working directory and environment, as `handleSocket` sets them. -/
def stepCmd (config : Config) (w : World) (vars : GoMap String) (i : Nat) (step : Step)
    (progPath : String) : Cmd :=
  let resolvedPath := resolveProgramPath config (w.stat i) progPath
  let expanded := expandArgs step.Args vars
  let cl := commandLine config w.goos resolvedPath expanded
  let workDir :=
    if hasSuffix (toLower resolvedPath) ".exe" then filepathDir resolvedPath
    else vars.get "$path"
  { name := cl.1, args := cl.2, dir := workDir, wineDebug := useWine w.goos resolvedPath }

/-- What a run of steps leaves: the messages sent, the processes started (or tried to),
and whether every step succeeded. -/
structure StepsRun where
  sent : List Msg
  spawned : List Cmd
  ok : Bool
  deriving DecidableEq, Repr

/-- The loop over `p.Steps` of `handleSocket`, from step number `i` on. -/
def runSteps (config : Config) (w : World) (vars : GoMap String) :
    Nat → List Step → StepsRun
  | _, [] => { sent := [], spawned := [], ok := true }
  | i, step :: rest =>
    let progPath := config.Programs.get step.Program
    if progPath = "" then
      { sent := [Msg.error ("program not configured: " ++ step.Program)], spawned := [],
        ok := false }
    else
      let cmd := stepCmd config w vars i step progPath
      let running := Msg.info ("Running " ++ cmd.name ++ " with args: " ++ joinArgs w.marshal cmd.args)
      match w.proc i cmd with
      | .stdoutPipeErr e =>
        { sent := [running, Msg.error ("cannot get stdout: " ++ e)], spawned := [], ok := false }
      | .stderrPipeErr e =>
        { sent := [running, Msg.error ("cannot get stderr: " ++ e)], spawned := [], ok := false }
      | .startErr e =>
        { sent := [running, Msg.error ("failed to start: " ++ e)], spawned := [cmd], ok := false }
      | .ran lines (some e) =>
        { sent := running :: lines.map (Msg.output step.Program)
            ++ [Msg.error ("process exited with error: " ++ e)],
          spawned := [cmd], ok := false }
      | .ran lines none =>
        let r := runSteps config w vars (i + 1) rest
        { sent := running :: lines.map (Msg.output step.Program)
            ++ Msg.stepDone step.Program :: r.sent,
          spawned := cmd :: r.spawned, ok := r.ok }

/-- What a session leaves: the messages sent to the peer in order, the processes
started, the temporary directory created by `os.MkdirTemp` if any, and the
directories given to `os.RemoveAll`. -/
structure Session where
  sent : List Msg
  spawned : List Cmd
  tmpDir : Option String
  removed : List String
  deriving DecidableEq, Repr

/-- The part of `handleSocket` from `vars := buildVarMap(vmfPath)` to its end: the
steps, then the artifact, then `done`. -/
def compile (config : Config) (w : World) (vmfPath : String) (p : Preset) :
    List Msg × List Cmd :=
  let vars := buildVarMap config w.getwd w.tempDir vmfPath
  let r := runSteps config w vars 0 p.Steps
  let start := Msg.info "Starting compile..."
  if ¬ r.ok then (start :: r.sent, r.spawned)
  else
    let bspPath := vars.get "$bsp"
    if bspPath ≠ "" then
      match w.readFile bspPath with
      | .ok b =>
        (start :: r.sent ++ [Msg.bsp (filepathBase bspPath) (base64Encode b), Msg.done],
          r.spawned)
      | .error e => (start :: r.sent ++ [Msg.error ("failed to read bsp: " ++ e)], r.spawned)
    else (start :: r.sent ++ [Msg.done], r.spawned)

/-- The state of a session that has got as far as `vars := buildVarMap(vmfPath)`: the
preset found, the path of the input, the temporary directory whose removal has been
deferred (if an upload was stored), and the messages sent so far. -/
structure Started where
  preset : Preset
  vmfPath : String
  tmpDir : Option String
  sent : List Msg
  deriving DecidableEq, Repr

/-- The part of `handleSocket` before `vars := buildVarMap(vmfPath)`, from the decoded
request on: the credential check, the search of the preset, and the storing of an
uploaded input.  The result is the session as it ends there, or the state it goes on
from. -/
def startSession (config : Config) (store : PresetStore) (w : World) (req : CompileRequest) :
    Except Session Started :=
  match CheckPassword config req.Password with
  | some _ =>
    .error { sent := [Msg.text "AUTH_FAILED"], spawned := [], tmpDir := none, removed := [] }
  | none =>
    match (getAllPresets store).find? (fun pr => pr.Name = req.Preset) with
    | none =>
      .error { sent := [Msg.text "ERROR: preset not found"], spawned := [], tmpDir := none,
               removed := [] }
    | some p =>
      if req.VMFData.length > 0 then
        let name := if req.VMFName = "" then "uploaded.vmf" else req.VMFName
        let name := filepathBase name
        match w.mkdirTemp with
        | .error e =>
          .error { sent := [Msg.error ("failed to create temp dir: " ++ e)], spawned := [],
                   tmpDir := none, removed := [] }
        | .ok d =>
          let vmfPath := filepathJoin [d, name]
          match w.writeFile vmfPath req.VMFData with
          | some e =>
            .error { sent := [Msg.error ("failed to write uploaded vmf: " ++ e)],
                     spawned := [], tmpDir := some d, removed := [] }
          | none =>
            .ok { preset := p, vmfPath := vmfPath, tmpDir := some d,
                  sent := [Msg.info ("Received VMF upload: " ++ vmfPath)] }
      else .ok { preset := p, vmfPath := req.VMF, tmpDir := none, sent := [] }

/-- Function `handleSocket` of `server.go`, from the decoded request on.  The deferred
`os.RemoveAll(tmpDir)` runs when the function returns, on the paths that registered
it. -/
def handleSocket (config : Config) (store : PresetStore) (w : World) (req : CompileRequest) :
    Session :=
  match startSession config store w req with
  | .error s => s
  | .ok st =>
    let c := compile config w st.vmfPath st.preset
    { sent := st.sent ++ c.1, spawned := c.2, tmpDir := st.tmpDir,
      removed := st.tmpDir.toList }

/-- Whether step number `i` succeeds: its program is configured, its process starts
and exits without error. -/
def stepSucceeds (config : Config) (w : World) (vars : GoMap String) (i : Nat) (step : Step) :
    Bool :=
  let progPath := config.Programs.get step.Program
  if progPath = "" then false
  else match w.proc i (stepCmd config w vars i step progPath) with
    | .ran _ none => true
    | _ => false

/-- The output lines captured from step number `i`, if it gets to run. -/
def stepLines (config : Config) (w : World) (vars : GoMap String) (i : Nat) (step : Step) :
    List String :=
  let progPath := config.Programs.get step.Program
  if progPath = "" then []
  else match w.proc i (stepCmd config w vars i step progPath) with
    | .ran lines _ => lines
    | _ => []

/-- The command started for step number `i`: none when the program is not configured
or a pipe cannot be opened. -/
def stepSpawn (config : Config) (w : World) (vars : GoMap String) (i : Nat) (step : Step) :
    List Cmd :=
  let progPath := config.Programs.get step.Program
  if progPath = "" then []
  else match w.proc i (stepCmd config w vars i step progPath) with
    | .ran _ _ => [stepCmd config w vars i step progPath]
    | .startErr _ => [stepCmd config w vars i step progPath]
    | _ => []

/-- Whether a message is a line of captured output. -/
def Msg.isOutput : Msg → Bool
  | .output _ _ => true
  | _ => false

/-- Whether a message is a `step_done`. -/
def Msg.isStepDone : Msg → Bool
  | .stepDone _ => true
  | _ => false

/-- Whether a message is an `info`. -/
def Msg.isInfo : Msg → Bool
  | .info _ => true
  | _ => false

/-- The `info` message that announces the command of step number `i`. -/
def stepRunning (config : Config) (w : World) (vars : GoMap String) (i : Nat) (step : Step) :
    Msg :=
  let cmd := stepCmd config w vars i step (config.Programs.get step.Program)
  Msg.info ("Running " ++ cmd.name ++ " with args: " ++ joinArgs w.marshal cmd.args)

/-- The messages of a step that succeeds: the announcement, the captured lines tagged
with the program key, and `step_done`. -/
def stepBlock (config : Config) (w : World) (vars : GoMap String) (js : Nat × Step) :
    List Msg :=
  stepRunning config w vars js.1 js.2
    :: (stepLines config w vars js.1 js.2).map (Msg.output js.2.Program)
    ++ [Msg.stepDone js.2.Program]

/-! ## `client.go`: the receive loop -/

namespace Chars

/-- Go `filepath.Ext`: the part of the last element of the path from its last dot on,
empty when that element has no dot. -/
def ext (p : List Char) : List Char :=
  let last := p.reverse.takeWhile (fun c => c ≠ '/')
  if '.' ∈ last then '.' :: (last.takeWhile (fun c => c ≠ '.')).reverse else []

end Chars

/-- Go `filepath.Ext`. -/
def filepathExt (p : String) : String := ⟨Chars.ext p.data⟩

/-- A message as the receive loop of `RunClient` classifies it: the read failed; it
parses as a typed message of kind `bsp` with a name and a payload; it parses as another
typed message (a non-empty kind, and a text); anything else is taken as plain text. -/
inductive Incoming where
  | readErr
  | bsp (name data : String)
  | typed (kind message : String)
  | plain (text : String)
  deriving DecidableEq, Repr

/-- The path the client writes an artifact to (`outPath` in `RunClient`): the directory
of the input joined with the declared name, or, when no name is declared, with the base
name of the input cut before its extension (unless nothing would be left), followed by
`.bsp`. -/
def artifactPath (vmfPath name : String) : String :=
  let outDir := filepathDir vmfPath
  let outName :=
    if name = "" then
      let base := filepathBase vmfPath
      let dot := base.length - (filepathExt base).length
      let stem := if dot > 0 then String.mk (base.data.take dot) else base
      stem ++ ".bsp"
    else name
  filepathJoin [outDir, outName]

/-- What a run of the receive loop leaves: the calls of `os.WriteFile` (path and
bytes), in order, and the number of messages read before the loop ended. -/
structure ClientRun where
  writes : List (String × List UInt8)
  read : Nat
  deriving DecidableEq, Repr

/-- The receive loop of `RunClient` on the messages that arrive, in order; `decode` is
`base64.StdEncoding.DecodeString` (`none` when it fails).  The loop ends on a failed
read, on a typed `done`, and on the plain text `COMPILE_DONE`; whether `os.WriteFile`
succeeds makes no difference to what follows. -/
def receive (decode : String → Option (List UInt8)) (vmfPath : String) :
    List Incoming → ClientRun
  | [] => { writes := [], read := 0 }
  | .readErr :: _ => { writes := [], read := 1 }
  | .bsp name data :: rest =>
    let r := receive decode vmfPath rest
    match decode data with
    | none => { writes := r.writes, read := r.read + 1 }
    | some bytes =>
      { writes := (artifactPath vmfPath name, bytes) :: r.writes, read := r.read + 1 }
  | .typed kind _ :: rest =>
    if kind = "done" then { writes := [], read := 1 }
    else
      let r := receive decode vmfPath rest
      { writes := r.writes, read := r.read + 1 }
  | .plain text :: rest =>
    if text = "COMPILE_DONE" then { writes := [], read := 1 }
    else
      let r := receive decode vmfPath rest
      { writes := r.writes, read := r.read + 1 }


/-! ## The shape of a cleaned path -/

namespace Chars

/-- The path that `clean` puts together from the elements it kept. -/
def render (rooted : Bool) (kept : List (List Char)) : List Char :=
  let out := (if rooted then ['/'] else []) ++ joinSep kept
  if out = [] then ['.'] else out

/-- The shape of the stack of `clean` (last element first): proper names, and under
them `..` elements only, none of them in a rooted path. -/
def Canon (rooted : Bool) (stack : List (List Char)) : Prop :=
  ∃ tops dots, stack = tops ++ dots ∧
    (∀ x ∈ tops, x ≠ [] ∧ x ≠ ['.'] ∧ x ≠ ['.', '.'] ∧ '/' ∉ x) ∧
    (∀ x ∈ dots, x = ['.', '.']) ∧ (rooted = true → dots = [])

end Chars


/-! ## Sample values -/

/-- A configuration with the credential `secret` and the two programs of the
end-to-end scenario. -/
def sampleConfig : Config :=
  { Password := "secret", Programs := [("vbsp", "/tools/vbsp"), ("vrad", "/tools/vrad")],
    BaseGamePath := "", WinePath := "", GameDir := "", ExeDir := "", BspDir := "",
    TmpDir := "" }

/-- The preset `compile` of the end-to-end scenario. -/
def samplePreset : Preset :=
  { Name := "compile",
    Steps := [{ Program := "vbsp", Args := ["$vmf"] }, { Program := "vrad", Args := ["$bsp"] }] }

/-- A store that holds the preset `compile`. -/
def sampleStore : PresetStore := { list := [("compile", samplePreset)], saved := none }

/-- A Linux host in `/srv` where both programs exist, every process prints one line
and succeeds, and the artifact holds the three bytes of `Man`. -/
def sampleWorld : World :=
  { goos := "linux", getwd := some "/srv", tempDir := "/tmp",
    stat := fun _ _ => true,
    mkdirTemp := .ok "/tmp/maprelay-1",
    writeFile := fun _ _ => none,
    readFile := fun _ => .ok [77, 97, 110],
    marshal := fun a => String.intercalate "," a,
    proc := fun _ c => .ran [c.name] none }

/-- The request of the end-to-end scenario, with the right credential and no upload. -/
def sampleRequest : CompileRequest :=
  { VMF := "maps/test.vmf", VMFName := "", VMFData := [], Preset := "compile",
    Password := "secret" }

/-- The sample host, but the second process (step 1) prints a line and exits with an
error. -/
def failingWorld : World :=
  { sampleWorld with
    proc := fun i c => if i = 0 then .ran [c.name] none else .ran ["boom"] (some "exit status 1") }

/-- A decoder that knows the payload `TWFu`, the three bytes of `Man`. -/
def sampleDecode : String → Option (List UInt8) :=
  fun s => if s = "TWFu" then some [77, 97, 110] else none


/-- A configuration whose program `vbsp` is a Windows tool. -/
def wineConfig : Config :=
  { sampleConfig with Programs := [("vbsp", "/tools/VBSP.exe")] }

/-- The one-step preset `win`, which runs `vbsp` on the input. -/
def winePreset : Preset :=
  { Name := "win", Steps := [{ Program := "vbsp", Args := ["-game", "$vmf"] }] }

/-- A store that holds the preset `win`. -/
def wineStore : PresetStore := { list := [("win", winePreset)], saved := none }

/-- The sample host, with `/home/user` as the working directory. -/
def wineWorld : World := { sampleWorld with getwd := some "/home/user" }

/-- A request for the preset `win` on the input `map.vmf`. -/
def wineRequest : CompileRequest :=
  { VMF := "map.vmf", VMFName := "", VMFData := [], Preset := "win", Password := "secret" }


/-! ## Theorems -/

/-- The model of `strings.ReplaceAll` on the examples of its documentation and on the
edge cases: overlapping matches, an empty `old`. -/
theorem replaceAll_examples :
    [replaceAll "oink oink oink" "k" "ky", replaceAll "oink oink oink" "oink" "moo",
     replaceAll "aaa" "aa" "b", replaceAll "abc" "" "-", replaceAll "" "" "-",
     replaceAll "/home/user/map.vmf" "/" "\\"] =
    ["oinky oinky oinky", "moo moo moo", "ba", "-a-b-c-", "-", "\\home\\user\\map.vmf"] := by
  decide

/-- The model of `filepath.Clean` on cases of the table of Go's own tests. -/
theorem filepathClean_examples :
    ["", "abc", "abc/def", "/", "abc/", "abc//def//ghi", "//abc", "abc/./def", "/./abc/def",
     "abc/def/ghi/../jkl", "abc/def/../../..", "/abc/def/../../..",
     "abc/def/../../../ghi/jkl/../../../mno", "/../abc", "abc/./../def", "abc/../../././../def"
    ].map filepathClean =
    [".", "abc", "abc/def", "/", "abc", "abc/def/ghi", "/abc", "abc/def", "/abc/def",
     "abc/def/jkl", "..", "/", "../../mno", "/abc", "def", "../../def"] := by
  decide

/-- The models of `filepath.Join`, `filepath.Base` and `filepath.Dir` on cases of the
tables of Go's own tests. -/
theorem filepath_examples :
    [filepathJoin [], filepathJoin [""], filepathJoin ["a", "b"], filepathJoin ["a", ""],
     filepathJoin ["", "b"], filepathJoin ["/", "a"], filepathJoin ["a/", "b"],
     filepathJoin ["", ""], filepathJoin ["/", ""]] =
      ["", "", "a/b", "a", "b", "/a", "a/b", "", "/"] ∧
    ["", ".", "/.", "/", "////", "x/", "abc", "abc/def", "a/b/.x", "a/b/c.", "a/b/c.x"
    ].map filepathBase =
      [".", ".", ".", "/", "/", "x", "abc", "def", ".x", "c.", "c.x"] ∧
    ["", ".", "/.", "/", "/foo", "x/", "abc", "abc/def", "a/b/.x", "a/b/c.", "a/b/c.x"
    ].map filepathDir =
      [".", ".", "/", "/", "/", "x", ".", "abc", "a/b", "a/b", "a/b"] := by
  decide

/-- The model of `filepath.Ext` on the cases of the table of Go's own tests, and on
names that start with a dot or have none. -/
theorem filepathExt_examples :
    ["path.go", "path.pb.go", "a.dir/b", "a.dir/b.go", "a.dir/", ".vmf", "test", "/", ""
    ].map filepathExt =
    [".go", ".go", "", ".go", "", ".vmf", "", "", ""] := by
  decide

/-- The model of `base64.StdEncoding` on the test vectors of RFC 4648 (the bytes of
`f`, `fo`, `foo`, `foob`, `fooba`, `foobar`). -/
theorem base64Encode_examples :
    [base64Encode [], base64Encode [102], base64Encode [102, 111],
     base64Encode [102, 111, 111], base64Encode [102, 111, 111, 98],
     base64Encode [102, 111, 111, 98, 97], base64Encode [102, 111, 111, 98, 97, 114]] =
    ["", "Zg==", "Zm8=", "Zm9v", "Zm9vYg==", "Zm9vYmE=", "Zm9vYmFy"] := by
  decide

/-- C3. `CheckPassword` accepts every provided credential when the configured one is
empty, and otherwise returns an error exactly when the provided credential differs
from the configured one; when it returns an error the session sends the single reply
`AUTH_FAILED` and ends: no output line, no `step_done`, no `bsp`, no `done` is sent
and no process is started. -/
theorem checkPassword_gate (config : Config) :
    (config.Password = "" → ∀ provided, CheckPassword config provided = none) ∧
    (config.Password ≠ "" →
      ∀ provided, (CheckPassword config provided).isSome ↔ provided ≠ config.Password) ∧
    (∀ store w req, (CheckPassword config req.Password).isSome →
      (handleSocket config store w req).sent = [Msg.text "AUTH_FAILED"] ∧
      (handleSocket config store w req).spawned = [] ∧
      ∀ m ∈ (handleSocket config store w req).sent,
        (∀ k l, m ≠ Msg.output k l) ∧ (∀ k, m ≠ Msg.stepDone k) ∧
        (∀ n d, m ≠ Msg.bsp n d) ∧ m ≠ Msg.done) := by
  refine ⟨?_, ?_, ?_⟩
  · intro h provided
    simp [CheckPassword, h]
  · intro h provided
    by_cases hp : provided = config.Password <;> simp [CheckPassword, h, hp]
  · intro store w req h
    cases hc : CheckPassword config req.Password with
    | none => simp [hc] at h
    | some e => simp [handleSocket, startSession, hc]

/-- Witness of C3: with the credential `secret` configured, the empty credential is
rejected and the session sends `AUTH_FAILED` only. -/
theorem checkPassword_gate_witness :
    CheckPassword sampleConfig "" = some "unauthorized" ∧
    (handleSocket sampleConfig sampleStore sampleWorld
      { VMF := "maps/test.vmf", VMFName := "", VMFData := [], Preset := "compile",
        Password := "" }).sent = [Msg.text "AUTH_FAILED"] :=
  ⟨by decide,
   ((checkPassword_gate sampleConfig).2.2 sampleStore sampleWorld
      { VMF := "maps/test.vmf", VMFName := "", VMFData := [], Preset := "compile",
        Password := "" } (by decide)).1⟩

/-- The replacement of a one-character `old` when the text starts with it. -/
theorem Chars.replaceAll_cons_self (c d : Char) (rest : List Char) :
    Chars.replaceAll (c :: rest) [c] [d] = d :: Chars.replaceAll rest [c] [d] := by
  simp [Chars.replaceAll, Chars.replaceGo]

/-- The rewriting of an argument under Wine, as the specification words it. -/
theorem wineArg_eq (a : String) :
    wineArg a =
      if hasPrefix a "/" then "Z:\\" ++ replaceAll (String.mk (a.data.drop 1)) "/" "\\"
      else a := by
  obtain ⟨l⟩ := a
  cases l with
  | nil => simp [wineArg, hasPrefix]
  | cons c rest =>
    by_cases hc : c = '/'
    · subst hc
      have h := Chars.replaceAll_cons_self '/' '\\' rest
      simp [wineArg, hasPrefix, replaceAll, String.length] at h ⊢
      simp [h]
    · have hc2 : ¬ '/' = c := fun h => hc h.symm
      simp [wineArg, hasPrefix, hc2]

/-- The command line of a step, as the specification words it.  When the resolved
executable ends in `.exe`, whatever the case of its letters, on a Linux host, the name
is the configured wrapper (`wine` when none is configured) and the arguments are the
resolved executable followed by the expanded arguments in their order, each argument
that begins with `/` rewritten to `Z:\` followed by the argument without its first
character and with every `/` replaced by `\`, every other argument unchanged; in every
other case the executable and the expanded arguments are used as they are. -/
theorem commandLine_wine (config : Config) (goos resolvedPath : String)
    (expanded : List String) :
    (goos = "linux" ∧ hasSuffix (toLower resolvedPath) ".exe" = true →
      commandLine config goos resolvedPath expanded =
        (if config.WinePath = "" then "wine" else config.WinePath,
         resolvedPath :: expanded.map (fun a =>
           if hasPrefix a "/" then "Z:\\" ++ replaceAll (String.mk (a.data.drop 1)) "/" "\\"
           else a))) ∧
    (¬ (goos = "linux" ∧ hasSuffix (toLower resolvedPath) ".exe" = true) →
      commandLine config goos resolvedPath expanded = (resolvedPath, expanded)) := by
  constructor
  · intro h
    have hw : useWine goos resolvedPath = true := by simp [useWine, h.1, h.2]
    simp only [commandLine, hw, if_true]
    congr 2
    apply List.map_congr_left
    intro a _
    exact wineArg_eq a
  · intro h
    have hw : useWine goos resolvedPath = false := by
      simp only [useWine, Bool.and_eq_false_iff, decide_eq_false_iff_not]
      by_cases hg : goos = "linux"
      · right
        simpa [hg] using h
      · left
        exact hg
    simp [commandLine, hw]

/-- The command line on an example: `/home/user/map.vmf` becomes `Z:\home\user\map.vmf`
for a Windows tool on Linux, and a relative argument is left alone. -/
theorem commandLine_wine_witness :
    commandLine sampleConfig "linux" "/tools/VBSP.exe" ["-game", "/home/user/map.vmf"] =
      ("wine", ["/tools/VBSP.exe", "-game", "Z:\\home\\user\\map.vmf"]) ∧
    commandLine sampleConfig "linux" "/tools/vbsp" ["-game", "/home/user/map.vmf"] =
      ("/tools/vbsp", ["-game", "/home/user/map.vmf"]) :=
  ⟨((commandLine_wine sampleConfig "linux" "/tools/VBSP.exe"
      ["-game", "/home/user/map.vmf"]).1 (by decide)).trans (by decide),
   (commandLine_wine sampleConfig "linux" "/tools/vbsp"
      ["-game", "/home/user/map.vmf"]).2 (by decide)⟩

/-- Replacing one character by another is a character-wise map. -/
theorem Chars.replaceGo_single (a b : Char) (s : List Char) :
    Chars.replaceGo [a] [b] 0 s = s.map (fun c => if c = a then b else c) := by
  induction s with
  | nil => simp [Chars.replaceGo]
  | cons c cs ih =>
    by_cases h : c = a
    · subst h
      simp [Chars.replaceGo, ih]
    · have h2 : ¬ a = c := fun e => h e.symm
      simp [Chars.replaceGo, ih, h, h2]

/-- A path with its backslashes replaced has none left. -/
theorem Chars.no_backslash_replaceAll (s : List Char) :
    '\\' ∉ Chars.replaceAll s ['\\'] ['/'] := by
  simp only [Chars.replaceAll, List.cons_ne_nil, if_false, Chars.replaceGo_single]
  intro h
  rcases List.mem_map.1 h with ⟨c, _, hc⟩
  by_cases hb : c = '\\'
  · simp [hb] at hc
  · simp [hb] at hc

/-- Without a backslash in it, trimming `/` and `\` is trimming `/`. -/
theorem Chars.trimLeft_both (s : List Char) (h : '\\' ∉ s) :
    Chars.trimLeft s ['/', '\\'] = Chars.trimLeft s ['/'] := by
  induction s with
  | nil => rfl
  | cons c cs ih =>
    have hc : c ≠ '\\' := fun e => h (by simp [e])
    have hcs : '\\' ∉ cs := fun e => h (by simp [e])
    have ih2 := ih hcs
    simp only [Chars.trimLeft] at ih2 ⊢
    by_cases hs : c = '/'
    · subst hs
      simpa [List.dropWhile] using ih2
    · simp [List.dropWhile, hs, hc]

/-- C6. For a configured (non-empty) program path `p`, with `n` the path `p` with every
backslash replaced by `/`: `resolveProgramPath` returns `n` when `n` is absolute and
exists; otherwise, when a base path is configured, the base path joined with `n` when
`n` is relative, and the base path joined with `n` without its leading separators when
`n` is absolute (and so does not exist); otherwise, with no base path, `n`. -/
theorem resolveProgramPath_rules (config : Config) (stat : String → Bool) (p : String)
    (hp : p ≠ "") :
    (filepathIsAbs (replaceAll p "\\" "/") = true ∧ stat (replaceAll p "\\" "/") = true →
      resolveProgramPath config stat p = replaceAll p "\\" "/") ∧
    (¬ (filepathIsAbs (replaceAll p "\\" "/") = true ∧ stat (replaceAll p "\\" "/") = true) →
      (config.BaseGamePath ≠ "" → filepathIsAbs (replaceAll p "\\" "/") = false →
        resolveProgramPath config stat p =
          filepathJoin [config.BaseGamePath, replaceAll p "\\" "/"]) ∧
      (config.BaseGamePath ≠ "" → filepathIsAbs (replaceAll p "\\" "/") = true →
        resolveProgramPath config stat p =
          filepathJoin [config.BaseGamePath, trimLeft (replaceAll p "\\" "/") "/"]) ∧
      (config.BaseGamePath = "" →
        resolveProgramPath config stat p = replaceAll p "\\" "/")) := by
  refine ⟨?_, ?_⟩
  · intro h
    simp [resolveProgramPath, hp, h.1, h.2]
  · intro h
    refine ⟨?_, ?_, ?_⟩
    · intro hb ha
      simp [resolveProgramPath, hp, hb, ha]
    · intro hb ha
      have hs : stat (replaceAll p "\\" "/") = false := by
        cases hst : stat (replaceAll p "\\" "/") with
        | false => rfl
        | true => exact absurd ⟨ha, hst⟩ h
      have ht : trimLeft (replaceAll p "\\" "/") "/\\" = trimLeft (replaceAll p "\\" "/") "/" := by
        have := Chars.trimLeft_both _ (Chars.no_backslash_replaceAll p.data)
        simp only [trimLeft, replaceAll]
        exact congrArg String.mk this
      simp [resolveProgramPath, hp, hb, ha, hs, ht]
    · intro hb
      have h2 : ¬ (filepathIsAbs (replaceAll p "\\" "/") = true ∧
          stat (replaceAll p "\\" "/") = true) := h
      simp only [resolveProgramPath, hp, if_false, hb, if_true]
      rw [if_neg h2]

/-- Witness of C6: with the base path `/games/gmod`, the missing absolute path
`\bin\vbsp.exe` resolves under the base path, an existing one is kept, a relative one
is joined, and without a base path the normalised path is returned. -/
theorem resolveProgramPath_rules_witness :
    resolveProgramPath { sampleConfig with BaseGamePath := "/games/gmod" } (fun _ => false)
      "\\bin\\vbsp.exe" = "/games/gmod/bin/vbsp.exe" ∧
    resolveProgramPath { sampleConfig with BaseGamePath := "/games/gmod" } (fun _ => true)
      "\\bin\\vbsp.exe" = "/bin/vbsp.exe" ∧
    resolveProgramPath { sampleConfig with BaseGamePath := "/games/gmod" } (fun _ => true)
      "bin\\vbsp.exe" = "/games/gmod/bin/vbsp.exe" ∧
    resolveProgramPath sampleConfig (fun _ => false) "\\bin\\vbsp.exe" = "/bin/vbsp.exe" :=
  ⟨(((resolveProgramPath_rules { sampleConfig with BaseGamePath := "/games/gmod" }
      (fun _ => false) "\\bin\\vbsp.exe" (by decide)).2 (by decide)).2.1
      (by decide) (by decide)).trans (by decide),
   ((resolveProgramPath_rules { sampleConfig with BaseGamePath := "/games/gmod" }
      (fun _ => true) "\\bin\\vbsp.exe" (by decide)).1 (by decide)).trans (by decide),
   (((resolveProgramPath_rules { sampleConfig with BaseGamePath := "/games/gmod" }
      (fun _ => true) "bin\\vbsp.exe" (by decide)).2 (by decide)).1
      (by decide) (by decide)).trans (by decide),
   (((resolveProgramPath_rules sampleConfig (fun _ => false) "\\bin\\vbsp.exe"
      (by decide)).2 (by decide)).2.2 (by decide)).trans (by decide)⟩

/-- Reading the key just assigned gives the assigned value. -/
theorem GoMap.get?_set_self {β : Type} (m : GoMap β) (k : String) (v : β) :
    (m.set k v).get? k = some v := by
  induction m with
  | nil => simp [GoMap.set, GoMap.get?, List.lookup]
  | cons kv rest ih =>
    obtain ⟨k', v'⟩ := kv
    by_cases h : k' = k
    · simp [GoMap.set, GoMap.get?, List.lookup, h]
    · have h2 : (k == k') = false := by simpa using fun e : k = k' => h e.symm
      simpa [GoMap.set, GoMap.get?, List.lookup, h, h2] using ih

/-- An assignment leaves the other keys as they were. -/
theorem GoMap.get?_set_other {β : Type} (m : GoMap β) (k : String) (v : β) (a : String)
    (ha : a ≠ k) : (m.set k v).get? a = m.get? a := by
  induction m with
  | nil =>
    have h2 : (a == k) = false := by simpa using ha
    simp [GoMap.set, GoMap.get?, List.lookup, h2]
  | cons kv rest ih =>
    obtain ⟨k', v'⟩ := kv
    by_cases h : k' = k
    · subst h
      have h2 : (a == k') = false := by simpa using ha
      simp [GoMap.set, GoMap.get?, List.lookup, h2]
    · by_cases h3 : a = k'
      · subst h3
        simp [GoMap.set, GoMap.get?, List.lookup, h]
      · have h4 : (a == k') = false := by simpa using h3
        simpa [GoMap.set, GoMap.get?, List.lookup, h, h4] using ih

/-- The bindings after an assignment are old bindings or the new one. -/
theorem GoMap.mem_set {β : Type} (m : GoMap β) (k : String) (v : β) (kv : String × β)
    (h : kv ∈ m.set k v) : kv ∈ m ∨ kv = (k, v) := by
  induction m with
  | nil => simpa [GoMap.set] using h
  | cons b rest ih =>
    obtain ⟨k', v'⟩ := b
    by_cases hk : k' = k
    · simp only [GoMap.set, hk, if_true, List.mem_cons] at h
      rcases h with h | h
      · exact Or.inr h
      · exact Or.inl (List.mem_cons_of_mem _ h)
    · simp only [GoMap.set, hk, if_false, List.mem_cons] at h
      rcases h with h | h
      · exact Or.inl (by simp [h])
      · rcases ih h with h2 | h2
        · exact Or.inl (List.mem_cons_of_mem _ h2)
        · exact Or.inr h2

/-- The keys after an assignment are old keys or the assigned key. -/
theorem GoMap.mem_keys_set {β : Type} (m : GoMap β) (k : String) (v : β) (a : String)
    (h : a ∈ (m.set k v).keys) : a ∈ m.keys ∨ a = k := by
  rcases List.mem_map.1 h with ⟨kv, hkv, rfl⟩
  rcases GoMap.mem_set m k v kv hkv with h2 | h2
  · exact Or.inl (List.mem_map.2 ⟨kv, h2, rfl⟩)
  · exact Or.inr (by rw [h2])

/-- An assignment keeps the keys distinct. -/
theorem GoMap.nodup_keys_set {β : Type} (m : GoMap β) (k : String) (v : β)
    (h : m.keys.Nodup) : (m.set k v).keys.Nodup := by
  induction m with
  | nil => simp [GoMap.set, GoMap.keys]
  | cons b rest ih =>
    obtain ⟨k', v'⟩ := b
    have hn : k' ∉ GoMap.keys rest ∧ (GoMap.keys rest).Nodup := by
      simpa [GoMap.keys] using h
    by_cases hk : k' = k
    · subst hk
      simpa [GoMap.set, GoMap.keys] using hn
    · have h3 : k' ∉ GoMap.keys (GoMap.set rest k v) := by
        intro hmem
        rcases GoMap.mem_keys_set rest k v k' hmem with h4 | h4
        · exact hn.1 h4
        · exact hk h4
      have h5 := ih hn.2
      simp only [GoMap.set, hk, if_false, GoMap.keys, List.map_cons, List.nodup_cons]
      exact ⟨h3, h5⟩

/-- The validation loop of `setPreset` finds a step exactly when some step names an
unknown program. -/
theorem find?_unknown_isSome (config : Config) (steps : List Step) :
    (steps.find? (fun s => (config.Programs.get? s.Program).isNone)).isSome ↔
      ∃ s ∈ steps, config.Programs.get? s.Program = none := by
  simp [List.find?_isSome]

/-- C8. For a preset whose name is empty or that has a step whose program is not a key
of the program table, `setPreset` returns an error and leaves the store exactly as it
was (table and presets file); for every other preset the table afterwards maps the
preset's name to that preset and every other name as before, and the names stay unique
keys: distinct keys stay distinct, and every preset stays stored under its own name. -/
theorem setPreset_validates (config : Config) (writeErr : Option String) (p : Preset)
    (st : PresetStore) :
    ((p.Name = "" ∨ ∃ s ∈ p.Steps, config.Programs.get? s.Program = none) →
      (setPreset config writeErr p st).1.isSome ∧ (setPreset config writeErr p st).2 = st) ∧
    (¬ (p.Name = "" ∨ ∃ s ∈ p.Steps, config.Programs.get? s.Program = none) →
      (setPreset config writeErr p st).2.list.get? p.Name = some p ∧
      (∀ name, name ≠ p.Name →
        (setPreset config writeErr p st).2.list.get? name = st.list.get? name) ∧
      (st.list.keys.Nodup → (setPreset config writeErr p st).2.list.keys.Nodup) ∧
      ((∀ kv ∈ st.list, kv.2.Name = kv.1) →
        ∀ kv ∈ (setPreset config writeErr p st).2.list, kv.2.Name = kv.1)) := by
  have hlist : ¬ (p.Name = "" ∨ ∃ s ∈ p.Steps, config.Programs.get? s.Program = none) →
      (setPreset config writeErr p st).2.list = st.list.set p.Name p := by
    intro h
    have hn : p.Name ≠ "" := fun e => h (Or.inl e)
    have hf : p.Steps.find? (fun s => (config.Programs.get? s.Program).isNone) = none := by
      cases hfind : p.Steps.find? (fun s => (config.Programs.get? s.Program).isNone) with
      | none => rfl
      | some s =>
        have := (find?_unknown_isSome config p.Steps).1 (by simp [hfind])
        exact absurd (Or.inr this) h
    cases writeErr <;> simp [setPreset, hn, hf, savePresets]
  constructor
  · intro h
    by_cases hn : p.Name = ""
    · simp [setPreset, hn]
    · have hex : ∃ s ∈ p.Steps, config.Programs.get? s.Program = none := by
        rcases h with h | h
        · exact absurd h hn
        · exact h
      have hsome := (find?_unknown_isSome config p.Steps).2 hex
      cases hfind : p.Steps.find? (fun s => (config.Programs.get? s.Program).isNone) with
      | none => simp [hfind] at hsome
      | some s => simp [setPreset, hn, hfind]
  · intro h
    rw [hlist h]
    refine ⟨GoMap.get?_set_self _ _ _, fun name hne => GoMap.get?_set_other _ _ _ _ hne,
      GoMap.nodup_keys_set _ _ _, ?_⟩
    intro hinv kv hkv
    rcases GoMap.mem_set _ _ _ _ hkv with h2 | h2
    · exact hinv kv h2
    · rw [h2]

/-- Witness of C8: a preset with the unknown program `vvis` is refused and the store
is untouched; the preset `compile` is stored under its name. -/
theorem setPreset_validates_witness :
    (setPreset sampleConfig none
      { Name := "fast", Steps := [{ Program := "vvis", Args := [] }] } sampleStore).2
      = sampleStore ∧
    (setPreset sampleConfig none samplePreset { list := [], saved := none }).2.list.get?
      "compile" = some samplePreset :=
  ⟨((setPreset_validates sampleConfig none
      { Name := "fast", Steps := [{ Program := "vvis", Args := [] }] } sampleStore).1
      (Or.inr ⟨{ Program := "vvis", Args := [] }, by decide, by decide⟩)).2,
   ((setPreset_validates sampleConfig none samplePreset { list := [], saved := none }).2
      (by decide)).1⟩

/-- A text that starts with a non-empty literal is not empty. -/
theorem append_ne_empty (a b : String) (ha : a ≠ "") : a ++ b ≠ "" := by
  intro h
  have h2 : (a ++ b).data = [] := by rw [h]
  rw [String.data_append] at h2
  exact ha (String.ext (List.append_eq_nil.1 h2).1)

/-- The loop at a step that succeeds: its block of messages, then the rest of the loop. -/
theorem runSteps_cons_ok (config : Config) (w : World) (vars : GoMap String) (k : Nat)
    (s : Step) (rest : List Step) (h : stepSucceeds config w vars k s = true) :
    (runSteps config w vars k (s :: rest)).sent =
        stepBlock config w vars (k, s) ++ (runSteps config w vars (k + 1) rest).sent ∧
    (runSteps config w vars k (s :: rest)).spawned =
        stepCmd config w vars k s (config.Programs.get s.Program)
          :: (runSteps config w vars (k + 1) rest).spawned ∧
    (runSteps config w vars k (s :: rest)).ok = (runSteps config w vars (k + 1) rest).ok := by
  unfold stepSucceeds at h
  by_cases hp : config.Programs.get s.Program = ""
  · simp [hp] at h
  · simp only [hp, if_false] at h
    cases hproc : w.proc k (stepCmd config w vars k s (config.Programs.get s.Program)) with
    | stdoutPipeErr e => simp [hproc] at h
    | stderrPipeErr e => simp [hproc] at h
    | startErr e => simp [hproc] at h
    | ran lines waitErr =>
      cases waitErr with
      | some e => simp [hproc] at h
      | none =>
        simp [runSteps, hp, hproc, stepBlock, stepRunning, stepLines]

/-- The loop at a step that fails: the messages of the step end with an `error` that
carries a reason, nothing follows, and the steps after it are not looked at. -/
theorem runSteps_cons_fail (config : Config) (w : World) (vars : GoMap String) (k : Nat)
    (s : Step) (rest : List Step) (h : stepSucceeds config w vars k s = false) :
    (runSteps config w vars k (s :: rest)).ok = false ∧
    (runSteps config w vars k (s :: rest)).spawned = stepSpawn config w vars k s ∧
    ∃ reason, reason ≠ "" ∧
      (config.Programs.get s.Program = "" →
        reason = "program not configured: " ++ s.Program) ∧
      (runSteps config w vars k (s :: rest)).sent =
        (if config.Programs.get s.Program = "" then []
         else stepRunning config w vars k s
           :: (stepLines config w vars k s).map (Msg.output s.Program))
        ++ [Msg.error reason] := by
  unfold stepSucceeds at h
  by_cases hp : config.Programs.get s.Program = ""
  · refine ⟨by simp [runSteps, hp], by simp [runSteps, hp, stepSpawn],
      "program not configured: " ++ s.Program, append_ne_empty _ _ (by decide),
      fun _ => rfl, by simp [runSteps, hp]⟩
  · simp only [hp, if_false] at h
    cases hproc : w.proc k (stepCmd config w vars k s (config.Programs.get s.Program)) with
    | stdoutPipeErr e =>
      exact ⟨by simp [runSteps, hp, hproc], by simp [runSteps, hp, hproc, stepSpawn],
        "cannot get stdout: " ++ e, append_ne_empty _ _ (by decide), fun e => absurd e hp,
        by simp [runSteps, hp, hproc, stepRunning, stepLines]⟩
    | stderrPipeErr e =>
      exact ⟨by simp [runSteps, hp, hproc], by simp [runSteps, hp, hproc, stepSpawn],
        "cannot get stderr: " ++ e, append_ne_empty _ _ (by decide), fun e => absurd e hp,
        by simp [runSteps, hp, hproc, stepRunning, stepLines]⟩
    | startErr e =>
      exact ⟨by simp [runSteps, hp, hproc], by simp [runSteps, hp, hproc, stepSpawn],
        "failed to start: " ++ e, append_ne_empty _ _ (by decide), fun e => absurd e hp,
        by simp [runSteps, hp, hproc, stepRunning, stepLines]⟩
    | ran lines waitErr =>
      cases waitErr with
      | none => simp [hproc] at h
      | some e =>
        exact ⟨by simp [runSteps, hp, hproc], by simp [runSteps, hp, hproc, stepSpawn],
          "process exited with error: " ++ e, append_ne_empty _ _ (by decide),
          fun e => absurd e hp, by simp [runSteps, hp, hproc, stepRunning, stepLines]⟩

/-- While the steps succeed the loop sends their blocks one after the other. -/
theorem runSteps_take (config : Config) (w : World) (vars : GoMap String) (steps : List Step) :
    ∀ (i k : Nat),
    (∀ j s, j < i → steps[j]? = some s → stepSucceeds config w vars (k + j) s = true) →
    (runSteps config w vars k steps).sent =
        ((steps.take i).enumFrom k).flatMap (stepBlock config w vars)
          ++ (runSteps config w vars (k + i) (steps.drop i)).sent ∧
    (runSteps config w vars k steps).spawned =
        ((steps.take i).enumFrom k).map
            (fun js => stepCmd config w vars js.1 js.2 (config.Programs.get js.2.Program))
          ++ (runSteps config w vars (k + i) (steps.drop i)).spawned ∧
    (runSteps config w vars k steps).ok =
        (runSteps config w vars (k + i) (steps.drop i)).ok := by
  induction steps with
  | nil => intro i k _; simp [runSteps]
  | cons s rest ih =>
    intro i k h
    cases i with
    | zero => simp
    | succ i =>
      have h0 : stepSucceeds config w vars k s = true := by
        simpa using h 0 s (Nat.succ_pos i) (by simp)
      have hrest : ∀ j t, j < i → rest[j]? = some t →
          stepSucceeds config w vars (k + 1 + j) t = true := by
        intro j t hj ht
        have := h (j + 1) t (Nat.succ_lt_succ hj) (by simpa using ht)
        simpa [Nat.add_assoc, Nat.add_comm 1 j] using this
      obtain ⟨e1, e2, e3⟩ := runSteps_cons_ok config w vars k s rest h0
      obtain ⟨i1, i2, i3⟩ := ih i (k + 1) hrest
      have hk : k + 1 + i = k + (i + 1) := by omega
      rw [hk] at i1 i2 i3
      refine ⟨?_, ?_, ?_⟩
      · rw [e1, i1]; simp
      · rw [e2, i2]; simp
      · rw [e3, i3]; simp

/-- The `step_done` messages of a block. -/
theorem stepBlock_filter_stepDone (config : Config) (w : World) (vars : GoMap String)
    (js : Nat × Step) :
    (stepBlock config w vars js).filter Msg.isStepDone = [Msg.stepDone js.2.Program] := by
  simp [stepBlock, stepRunning, List.filter_cons, List.filter_append, Msg.isStepDone,
    List.filter_map, Function.comp_def]

/-- The output lines of a block. -/
theorem stepBlock_filter_output (config : Config) (w : World) (vars : GoMap String)
    (js : Nat × Step) :
    (stepBlock config w vars js).filter Msg.isOutput =
      (stepLines config w vars js.1 js.2).map (Msg.output js.2.Program) := by
  simp [stepBlock, stepRunning, List.filter_cons, List.filter_append, Msg.isOutput,
    List.filter_map, Function.comp_def]

/-- A block holds neither `done`, nor `bsp`, nor `error`, nor a plain text. -/
theorem stepBlock_kinds (config : Config) (w : World) (vars : GoMap String)
    (js : Nat × Step) (m : Msg) (hm : m ∈ stepBlock config w vars js) :
    (∃ t, m = Msg.info t) ∨ (∃ l, m = Msg.output js.2.Program l) ∨
      m = Msg.stepDone js.2.Program := by
  simp only [stepBlock, stepRunning, List.cons_append, List.mem_cons, List.mem_append,
    List.mem_map, List.mem_singleton, List.not_mem_nil, or_false] at hm
  rcases hm with h | ⟨l, _, h⟩ | h
  · exact Or.inl ⟨_, h⟩
  · exact Or.inr (Or.inl ⟨l, h.symm⟩)
  · exact Or.inr (Or.inr h)

/-- A session that gets as far as the steps sends what it had sent, then what the
compile part sends, and removes the temporary directory it registered. -/
theorem handleSocket_started (config : Config) (store : PresetStore) (w : World)
    (req : CompileRequest) (st : Started) (hst : startSession config store w req = .ok st) :
    handleSocket config store w req =
      { sent := st.sent ++ (compile config w st.vmfPath st.preset).1,
        spawned := (compile config w st.vmfPath st.preset).2,
        tmpDir := st.tmpDir, removed := st.tmpDir.toList } := by
  simp [handleSocket, hst]

/-- Before the steps a session has sent nothing, or the one `info` about the upload. -/
theorem startSession_sent (config : Config) (store : PresetStore) (w : World)
    (req : CompileRequest) (st : Started) (hst : startSession config store w req = .ok st) :
    st.sent = [] ∨ ∃ t, st.sent = [Msg.info t] := by
  unfold startSession at hst
  cases h1 : CheckPassword config req.Password with
  | some e => simp [h1] at hst
  | none =>
    cases h2 : (getAllPresets store).find? (fun pr => pr.Name = req.Preset) with
    | none => simp [h1, h2] at hst
    | some p =>
      by_cases h3 : req.VMFData.length > 0
      · cases h4 : w.mkdirTemp with
        | error e => simp [h1, h2, h3, h4] at hst
        | ok d =>
          simp only [h1, h2, h3, h4, if_true] at hst
          cases h5 : w.writeFile
              (filepathJoin [d, filepathBase (if req.VMFName = "" then "uploaded.vmf"
                else req.VMFName)]) req.VMFData with
          | some e => simp [h5] at hst
          | none =>
            simp only [h5, Except.ok.injEq] at hst
            exact Or.inr ⟨_, by rw [← hst]⟩
      · simp only [h1, h2, h3, if_false, Except.ok.injEq] at hst
        exact Or.inl (by rw [← hst])

/-- One message per numbered element, taken from the element alone. -/
theorem enumFrom_flatMap_singleton {α β : Type} (f : α → β) (l : List α) (k : Nat) :
    (l.enumFrom k).flatMap (fun js => [f js.2]) = l.map f := by
  induction l generalizing k with
  | nil => rfl
  | cons a rest ih => simp [List.enumFrom_cons, ih]

/-- The loop when step `i` is the first to fail: the blocks of the steps before it, then
what step `i` sends, ending with an `error`. -/
theorem runSteps_first_failure (config : Config) (w : World) (vars : GoMap String)
    (steps : List Step) (i : Nat) (step : Step) (hi : steps[i]? = some step)
    (hbefore : ∀ j s, j < i → steps[j]? = some s → stepSucceeds config w vars j s = true)
    (hfail : stepSucceeds config w vars i step = false) :
    (runSteps config w vars 0 steps).ok = false ∧
    (runSteps config w vars 0 steps).spawned =
      (steps.take i).enum.map
          (fun js => stepCmd config w vars js.1 js.2 (config.Programs.get js.2.Program))
        ++ stepSpawn config w vars i step ∧
    ∃ reason, reason ≠ "" ∧
      (config.Programs.get step.Program = "" →
        reason = "program not configured: " ++ step.Program) ∧
      (runSteps config w vars 0 steps).sent =
        (steps.take i).enum.flatMap (stepBlock config w vars)
        ++ (if config.Programs.get step.Program = "" then []
            else stepRunning config w vars i step
              :: (stepLines config w vars i step).map (Msg.output step.Program))
        ++ [Msg.error reason] := by
  have hlt : i < steps.length := by
    rcases List.getElem?_eq_some_iff.1 hi with ⟨h, _⟩
    exact h
  have hdrop : steps.drop i = step :: steps.drop (i + 1) := by
    rw [List.drop_eq_getElem_cons hlt]
    congr 1
    rcases List.getElem?_eq_some_iff.1 hi with ⟨_, h⟩
    exact h
  obtain ⟨t1, t2, t3⟩ := runSteps_take config w vars steps i 0
    (fun j s hj hs => by simpa using hbefore j s hj hs)
  simp only [Nat.zero_add] at t1 t2 t3
  rw [hdrop] at t1 t2 t3
  obtain ⟨f1, f2, reason, f3, f4, f5⟩ :=
    runSteps_cons_fail config w vars i step (steps.drop (i + 1)) hfail
  refine ⟨by rw [t3, f1], by rw [t2, f2]; rfl, reason, f3, f4, ?_⟩
  rw [t1, f5, List.append_assoc]
  rfl

/-- C1. In a session that gets as far as the steps of its preset, if step `i` is the
first step that fails (its program key has no configured path, or a pipe or the process
cannot be started, or the process exits with an error), the last message sent is an
`error` with a non-empty reason; the `step_done` messages are exactly those of the
steps before `i`, in preset order; the output lines are those of the steps up to `i`;
the processes started are those of the steps before `i` and possibly that of step `i`;
neither `bsp` nor `done` is sent.  When the program key has no configured path the
reason is `program not configured: <key>` and no process is started for step `i`. -/
theorem first_failure_ends_session (config : Config) (store : PresetStore) (w : World)
    (req : CompileRequest) (st : Started) (vars : GoMap String) (i : Nat) (step : Step)
    (hst : startSession config store w req = .ok st)
    (hv : vars = buildVarMap config w.getwd w.tempDir st.vmfPath)
    (hi : st.preset.Steps[i]? = some step)
    (hbefore : ∀ j s, j < i → st.preset.Steps[j]? = some s →
      stepSucceeds config w vars j s = true)
    (hfail : stepSucceeds config w vars i step = false) :
    (∃ reason, reason ≠ "" ∧
      (handleSocket config store w req).sent.getLast? = some (Msg.error reason) ∧
      (config.Programs.get step.Program = "" →
        reason = "program not configured: " ++ step.Program)) ∧
    (handleSocket config store w req).sent.filter Msg.isStepDone =
      (st.preset.Steps.take i).map (fun s => Msg.stepDone s.Program) ∧
    (handleSocket config store w req).sent.filter Msg.isOutput =
      (st.preset.Steps.take (i + 1)).enum.flatMap
        (fun js => (stepLines config w vars js.1 js.2).map (Msg.output js.2.Program)) ∧
    (handleSocket config store w req).spawned =
      (st.preset.Steps.take i).enum.map
          (fun js => stepCmd config w vars js.1 js.2 (config.Programs.get js.2.Program))
        ++ stepSpawn config w vars i step ∧
    (config.Programs.get step.Program = "" →
      (handleSocket config store w req).spawned =
        (st.preset.Steps.take i).enum.map
          (fun js => stepCmd config w vars js.1 js.2 (config.Programs.get js.2.Program))) ∧
    Msg.done ∉ (handleSocket config store w req).sent ∧
    (∀ n d, Msg.bsp n d ∉ (handleSocket config store w req).sent) := by
  obtain ⟨r1, r2, reason, r3, r4, r5⟩ :=
    runSteps_first_failure config w vars st.preset.Steps i step hi hbefore hfail
  have hc1 : (compile config w st.vmfPath st.preset).1 =
      Msg.info "Starting compile..." :: (runSteps config w vars 0 st.preset.Steps).sent := by
    simp [compile, ← hv, r1]
  have hc2 : (compile config w st.vmfPath st.preset).2 =
      (runSteps config w vars 0 st.preset.Steps).spawned := by
    simp [compile, ← hv, r1]
  have hsent : (handleSocket config store w req).sent =
      (st.sent ++ Msg.info "Starting compile..." ::
        ((st.preset.Steps.take i).enum.flatMap (stepBlock config w vars)
        ++ (if config.Programs.get step.Program = "" then []
            else stepRunning config w vars i step
              :: (stepLines config w vars i step).map (Msg.output step.Program))))
        ++ [Msg.error reason] := by
    rw [handleSocket_started config store w req st hst]
    simp only [hc1, r5]
    simp
  have hspawn : (handleSocket config store w req).spawned =
      (st.preset.Steps.take i).enum.map
          (fun js => stepCmd config w vars js.1 js.2 (config.Programs.get js.2.Program))
        ++ stepSpawn config w vars i step := by
    rw [handleSocket_started config store w req st hst]
    simp only [hc2, r2]
  have htake : st.preset.Steps.take (i + 1) = st.preset.Steps.take i ++ [step] := by
    rw [List.take_succ, hi]
    rfl
  have hpre : st.sent.filter Msg.isStepDone = [] ∧ st.sent.filter Msg.isOutput = [] ∧
      Msg.done ∉ st.sent ∧ ∀ n d, Msg.bsp n d ∉ st.sent := by
    rcases startSession_sent config store w req st hst with h | ⟨t, h⟩ <;>
      simp [h, Msg.isStepDone, Msg.isOutput]
  have hblocks : ∀ m ∈ (st.preset.Steps.take i).enum.flatMap (stepBlock config w vars),
      m ≠ Msg.done ∧ ∀ n d, m ≠ Msg.bsp n d := by
    intro m hm
    rcases List.mem_flatMap.1 hm with ⟨js, _, hjs⟩
    rcases stepBlock_kinds config w vars js m hjs with ⟨t, h⟩ | ⟨l, h⟩ | h <;>
      simp [h]
  have hlast : ∀ m ∈ (if config.Programs.get step.Program = "" then []
      else stepRunning config w vars i step
        :: (stepLines config w vars i step).map (Msg.output step.Program)),
      m ≠ Msg.done ∧ ∀ n d, m ≠ Msg.bsp n d := by
    intro m hm
    by_cases hp : config.Programs.get step.Program = ""
    · simp [hp] at hm
    · simp only [hp, if_false, List.mem_cons, List.mem_map] at hm
      rcases hm with h | ⟨l, _, h⟩
      · simp [h, stepRunning]
      · simp [← h]
  refine ⟨⟨reason, r3, ?_, r4⟩, ?_, ?_, hspawn, ?_, ?_, ?_⟩
  · rw [hsent]
    exact List.getLast?_concat _
  · rw [hsent]
    simp only [List.filter_append, List.filter_cons, hpre.1, List.filter_flatMap,
      stepBlock_filter_stepDone, List.nil_append, List.enum]
    rw [enumFrom_flatMap_singleton (fun s : Step => Msg.stepDone s.Program)]
    by_cases hp : config.Programs.get step.Program = ""
    · simp [hp, Msg.isStepDone]
    · simp [hp, Msg.isStepDone, stepRunning, List.filter_map, Function.comp_def]
  · rw [hsent, htake]
    simp only [List.filter_append, List.filter_cons, hpre.2.1, List.filter_flatMap,
      stepBlock_filter_output, List.nil_append, List.enum, List.enumFrom_append,
      List.flatMap_append, List.enumFrom_cons, List.enumFrom_nil, List.flatMap_cons,
      List.flatMap_nil, List.append_nil]
    have hlen : 0 + (st.preset.Steps.take i).length = i := by
      have hlt : i < st.preset.Steps.length := (List.getElem?_eq_some_iff.1 hi).1
      simp [List.length_take, Nat.min_eq_left (Nat.le_of_lt hlt)]
    rw [hlen]
    by_cases hp : config.Programs.get step.Program = ""
    · simp [hp, Msg.isOutput, stepLines]
    · simp [hp, Msg.isOutput, stepRunning, List.filter_map, Function.comp_def]
  · intro hp
    rw [hspawn]
    simp [stepSpawn, hp]
  · rw [hsent]
    intro hmem
    simp only [List.mem_append, List.mem_cons, List.mem_singleton, List.not_mem_nil,
      or_false] at hmem
    rcases hmem with (h | h | h | h) | h
    · exact hpre.2.2.1 h
    · cases h
    · exact (hblocks _ h).1 rfl
    · exact (hlast _ h).1 rfl
    · cases h
  · intro n d hmem
    rw [hsent] at hmem
    simp only [List.mem_append, List.mem_cons, List.mem_singleton, List.not_mem_nil,
      or_false] at hmem
    rcases hmem with (h | h | h | h) | h
    · exact hpre.2.2.2 n d h
    · cases h
    · exact (hblocks _ h).2 n d rfl
    · exact (hlast _ h).2 n d rfl
    · cases h

/-- Witness of C1: in the preset `[vbsp, vrad]` the step `vrad` exits with an error;
the session sends `step_done` for `vbsp` only, ends with the `error`, and sends no
`done`. -/
theorem first_failure_ends_session_witness :
    (handleSocket sampleConfig sampleStore failingWorld sampleRequest).sent =
      [Msg.info "Starting compile...",
       Msg.info "Running /tools/vbsp with args: /srv/maps/test.vmf",
       Msg.output "vbsp" "/tools/vbsp", Msg.stepDone "vbsp",
       Msg.info "Running /tools/vrad with args: /srv/maps/test.bsp",
       Msg.output "vrad" "boom", Msg.error "process exited with error: exit status 1"] ∧
    (handleSocket sampleConfig sampleStore failingWorld sampleRequest).sent.filter
      Msg.isStepDone = [Msg.stepDone "vbsp"] ∧
    Msg.done ∉ (handleSocket sampleConfig sampleStore failingWorld sampleRequest).sent :=
  have h := first_failure_ends_session sampleConfig sampleStore failingWorld sampleRequest
    { preset := samplePreset, vmfPath := "maps/test.vmf", tmpDir := none, sent := [] }
    (buildVarMap sampleConfig failingWorld.getwd failingWorld.tempDir "maps/test.vmf")
    1 { Program := "vrad", Args := ["$bsp"] } (by rfl) rfl (by decide)
    (by
      intro j s hj hs
      have hj0 : j = 0 := by omega
      subst hj0
      have hs2 : s = { Program := "vbsp", Args := ["$vmf"] } := by
        simpa [samplePreset] using hs.symm
      subst hs2
      decide)
    (by decide)
  ⟨by decide, h.2.1, h.2.2.2.2.2.1⟩

/-- The elements of a path that holds no separator: the path itself. -/
theorem Chars.splitSep_of_not_mem (c : List Char) (h : '/' ∉ c) : Chars.splitSep c = [c] := by
  induction c with
  | nil => rfl
  | cons a rest ih =>
    have ha : a ≠ '/' := fun e => h (by simp [e])
    have hr : '/' ∉ rest := fun e => h (by simp [e])
    simp [Chars.splitSep, ha, ih hr]

/-- The elements of a path are never none. -/
theorem Chars.splitSep_ne_nil (p : List Char) : Chars.splitSep p ≠ [] := by
  cases p with
  | nil => simp [Chars.splitSep]
  | cons a rest =>
    by_cases ha : a = '/'
    · simp [Chars.splitSep, ha]
    · simp only [Chars.splitSep, ha, if_false]
      cases Chars.splitSep rest <;> simp

/-- The elements of `q/c` are those of `q`, then `c`, when `c` holds no separator. -/
theorem Chars.splitSep_append (q c : List Char) (h : '/' ∉ c) :
    Chars.splitSep (q ++ '/' :: c) = Chars.splitSep q ++ [c] := by
  induction q with
  | nil => simp [Chars.splitSep, Chars.splitSep_of_not_mem c h]
  | cons a rest ih =>
    by_cases ha : a = '/'
    · simp [Chars.splitSep, ha, ih]
    · simp only [List.cons_append, Chars.splitSep, ha, if_false]
      have ih2 : Chars.splitSep (rest.append ('/' :: c)) = Chars.splitSep rest ++ [c] := ih
      rw [ih2]
      cases hs : Chars.splitSep rest with
      | nil => exact absurd hs (Chars.splitSep_ne_nil rest)
      | cons x xs => simp

/-- Joining elements the last of which is `c`: a text that is `c`, or ends in `/c`. -/
theorem Chars.joinSep_concat (xs : List (List Char)) (c : List Char) :
    ∃ pre, Chars.joinSep (xs ++ [c]) = pre ++ c ∧
      (pre = [] ∨ ∃ pre2, pre = pre2 ++ ['/']) := by
  induction xs with
  | nil => exact ⟨[], by simp [Chars.joinSep], Or.inl rfl⟩
  | cons x rest ih =>
    obtain ⟨pre, h1, h2⟩ := ih
    refine ⟨x ++ '/' :: pre, ?_, Or.inr ?_⟩
    · cases rest with
      | nil =>
        simp only [List.nil_append, Chars.joinSep] at h1
        have hpre : pre = [] := by
          have := congrArg List.length h1
          simp only [List.length_append] at this
          exact List.length_eq_zero.1 (by omega)
        simp [Chars.joinSep, hpre]
      | cons y ys =>
        simp only [List.cons_append] at h1
        simp [Chars.joinSep, h1]
    · rcases h2 with h2 | ⟨pre2, h2⟩
      · exact ⟨x, by simp [h2]⟩
      · exact ⟨x ++ '/' :: pre2, by simp [h2]⟩

/-- The base name of a text that is `c` or ends in `/c`, for an element `c` that is
not empty and holds no separator, is `c`. -/
theorem Chars.base_append (pre c : List Char) (hc : c ≠ []) (hs : '/' ∉ c)
    (hpre : pre = [] ∨ ∃ pre2, pre = pre2 ++ ['/']) : Chars.base (pre ++ c) = c := by
  have hne : pre ++ c ≠ [] := by simp [hc]
  have hrev : c.reverse ≠ [] := by simpa using hc
  obtain ⟨a, l, hal⟩ := List.exists_cons_of_ne_nil hrev
  have ha : a ≠ '/' := by
    intro e
    have : a ∈ c.reverse := by rw [hal]; simp
    exact hs (by simpa [e] using this)
  have htrim : Chars.trimRight (pre ++ c) ['/'] = pre ++ c := by
    simp only [Chars.trimRight, List.reverse_append, hal, List.cons_append]
    rw [List.dropWhile_cons_of_neg (by simpa using ha)]
    rw [← List.cons_append, ← hal, ← List.reverse_append, List.reverse_reverse]
  have htake : ((pre ++ c).reverse.takeWhile (fun x => x ≠ '/')) = c.reverse := by
    rw [List.reverse_append]
    have hall : ∀ x ∈ c.reverse, (decide (x ≠ '/')) = true := by
      intro x hx
      have : x ∈ c := by simpa using hx
      simpa using fun e : x = '/' => hs (e ▸ this)
    rcases hpre with h | ⟨pre2, h⟩
    · subst h
      simp only [List.reverse_nil, List.append_nil]
      exact List.takeWhile_eq_self_iff.2 hall
    · subst h
      simp only [List.reverse_append, List.reverse_cons, List.reverse_nil, List.nil_append,
        List.singleton_append]
      rw [List.takeWhile_append_of_pos hall]
      simp
  simp only [Chars.base, hne, if_false, htrim, htake, List.reverse_reverse, hc]

/-- A cleaned path is never empty. -/
theorem Chars.clean_ne_nil (p : List Char) : Chars.clean p ≠ [] := by
  have key : ∀ out : List Char, (if out = [] then ['.'] else out) ≠ [] := by
    intro out
    by_cases h : out = [] <;> simp [h]
  exact key _

/-- A cleaned path whose last element `c` is a proper name (not empty, `.` or `..`)
is `c`, or ends in `/c`. -/
theorem Chars.clean_last (p : List Char) (init : List (List Char)) (c : List Char)
    (hsplit : Chars.splitSep p = init ++ [c]) (h0 : c ≠ []) (h1 : c ≠ ['.'])
    (h2 : c ≠ ['.', '.']) :
    ∃ pre, Chars.clean p = pre ++ c ∧ (pre = [] ∨ ∃ pre2, pre = pre2 ++ ['/']) := by
  have hstep : ∀ rooted stack, Chars.cleanStep rooted stack c = c :: stack := by
    intro rooted stack
    simp [Chars.cleanStep, h0, h1, h2]
  obtain ⟨pre0, hj, hpre0⟩ := Chars.joinSep_concat
    ((init.foldl (Chars.cleanStep (['/'].isPrefixOf p)) []).reverse) c
  have hout : (if (['/'].isPrefixOf p) = true then ['/'] else []) ++ Chars.joinSep
      (((Chars.splitSep p).foldl (Chars.cleanStep (['/'].isPrefixOf p)) []).reverse) =
      ((if (['/'].isPrefixOf p) = true then ['/'] else []) ++ pre0) ++ c := by
    rw [hsplit, List.foldl_append, List.foldl_cons, List.foldl_nil, hstep, List.reverse_cons,
      hj, List.append_assoc]
  refine ⟨(if (['/'].isPrefixOf p) = true then ['/'] else []) ++ pre0, ?_, ?_⟩
  · simp only [Chars.clean]
    rw [hout]
    simp [h0]
  · rcases hpre0 with h | ⟨pre2, h⟩
    · subst h
      by_cases hr : (['/'].isPrefixOf p) = true
      · exact Or.inr ⟨[], by simp [hr]⟩
      · exact Or.inl (by simp [hr])
    · exact Or.inr ⟨(if (['/'].isPrefixOf p) = true then ['/'] else []) ++ pre2, by simp [h]⟩

/-- The base name of a directory joined with a proper name is that name. -/
theorem Chars.base_join (d c : List Char) (hs : '/' ∉ c) (h0 : c ≠ []) (h1 : c ≠ ['.'])
    (h2 : c ≠ ['.', '.']) : Chars.base (Chars.join [d, c]) = c := by
  by_cases hd : d = []
  · subst hd
    obtain ⟨pre, hp, hpre⟩ := Chars.clean_last c [] c
      (by simpa using Chars.splitSep_of_not_mem c hs) h0 h1 h2
    simp only [Chars.join, if_true, h0, if_false, Chars.joinSep, hp]
    exact Chars.base_append pre c h0 hs hpre
  · obtain ⟨pre, hp, hpre⟩ := Chars.clean_last (d ++ '/' :: c) (Chars.splitSep d) c
      (Chars.splitSep_append d c hs) h0 h1 h2
    simp only [Chars.join, hd, if_false, Chars.joinSep, hp]
    exact Chars.base_append pre c h0 hs hpre

/-- Joining onto a non-empty name never gives the empty path. -/
theorem Chars.join_ne_nil (d c : List Char) (h0 : c ≠ []) : Chars.join [d, c] ≠ [] := by
  by_cases hd : d = []
  · simp only [Chars.join, hd, if_true, h0, if_false]
    exact Chars.clean_ne_nil _
  · simp only [Chars.join, hd, if_false]
    exact Chars.clean_ne_nil _

/-- The file `<stem>.bsp` joined to any directory has the base name `<stem>.bsp`, for a
stem that holds no separator. -/
theorem filepathBase_join_bsp (dir stem : String) (hs : '/' ∉ stem.data) :
    filepathBase (filepathJoin [dir, stem ++ ".bsp"]) = stem ++ ".bsp" := by
  have hc : (stem ++ ".bsp").data = stem.data ++ ['.', 'b', 's', 'p'] := by
    rw [String.data_append]
  have hlen : (stem ++ ".bsp").data.length ≥ 4 := by simp [hc]
  have key := Chars.base_join dir.data (stem ++ ".bsp").data
    (by rw [hc]; simp [hs])
    (by intro e; rw [e] at hlen; simp at hlen)
    (by intro e; rw [e] at hlen; simp at hlen)
    (by intro e; rw [e] at hlen; simp at hlen)
  simp only [filepathBase, filepathJoin, List.map_cons, List.map_nil]
  exact String.ext key

/-- The artifact path that `buildVarMap` computes is never empty. -/
theorem filepathJoin_bsp_ne_empty (dir stem : String) :
    filepathJoin [dir, stem ++ ".bsp"] ≠ "" := by
  intro h
  have h2 := congrArg String.data h
  simp only [filepathJoin, List.map_cons, List.map_nil] at h2
  exact Chars.join_ne_nil dir.data (stem ++ ".bsp").data
    (by rw [String.data_append]; simp) h2

/-- What the loop can send: `info`, an `error` with a reason, and output lines and
`step_done` that carry the program key of one of the steps. -/
theorem runSteps_kinds (config : Config) (w : World) (vars : GoMap String)
    (steps : List Step) : ∀ (k : Nat) (m : Msg), m ∈ (runSteps config w vars k steps).sent →
      (∃ t, m = Msg.info t) ∨ (∃ t, t ≠ "" ∧ m = Msg.error t) ∨
      (∃ s ∈ steps, ∃ l, m = Msg.output s.Program l) ∨
      (∃ s ∈ steps, m = Msg.stepDone s.Program) := by
  induction steps with
  | nil => intro k m hm; simp [runSteps] at hm
  | cons s rest ih =>
    intro k m hm
    cases hok : stepSucceeds config w vars k s with
    | true =>
      rw [(runSteps_cons_ok config w vars k s rest hok).1, List.mem_append] at hm
      rcases hm with hm | hm
      · rcases stepBlock_kinds config w vars (k, s) m hm with h | ⟨l, h⟩ | h
        · exact Or.inl h
        · exact Or.inr (Or.inr (Or.inl ⟨s, by simp, l, h⟩))
        · exact Or.inr (Or.inr (Or.inr ⟨s, by simp, h⟩))
      · rcases ih (k + 1) m hm with h | h | ⟨t, ht, h⟩ | ⟨t, ht, h⟩
        · exact Or.inl h
        · exact Or.inr (Or.inl h)
        · exact Or.inr (Or.inr (Or.inl ⟨t, List.mem_cons_of_mem _ ht, h⟩))
        · exact Or.inr (Or.inr (Or.inr ⟨t, List.mem_cons_of_mem _ ht, h⟩))
    | false =>
      obtain ⟨_, _, reason, hr, _, hsent⟩ := runSteps_cons_fail config w vars k s rest hok
      rw [hsent, List.mem_append, List.mem_singleton] at hm
      rcases hm with hm | hm
      · by_cases hp : config.Programs.get s.Program = ""
        · simp [hp] at hm
        · simp only [hp, if_false, List.mem_cons, List.mem_map] at hm
          rcases hm with h | ⟨l, _, h⟩
          · exact Or.inl ⟨_, h⟩
          · exact Or.inr (Or.inr (Or.inl ⟨s, by simp, l, h.symm⟩))
      · exact Or.inr (Or.inl ⟨reason, hr, hm⟩)

/-- The loop reports success only when every step succeeded. -/
theorem runSteps_ok_imp (config : Config) (w : World) (vars : GoMap String)
    (steps : List Step) : ∀ (k : Nat), (runSteps config w vars k steps).ok = true →
      ∀ j s, steps[j]? = some s → stepSucceeds config w vars (k + j) s = true := by
  induction steps with
  | nil => intro k _ j s hs; simp at hs
  | cons s0 rest ih =>
    intro k hk j s hs
    cases hok : stepSucceeds config w vars k s0 with
    | false =>
      rw [(runSteps_cons_fail config w vars k s0 rest hok).1] at hk
      cases hk
    | true =>
      rw [(runSteps_cons_ok config w vars k s0 rest hok).2.2] at hk
      cases j with
      | zero =>
        simp only [List.getElem?_cons_zero, Option.some.injEq] at hs
        rw [← hs]
        simpa using hok
      | succ j =>
        simp only [List.getElem?_cons_succ] at hs
        have := ih (k + 1) hk j s hs
        have e : k + 1 + j = k + (j + 1) := by omega
        rwa [e] at this

/-- When every step succeeds the loop sends the blocks of all the steps, starts all
their processes, and reports success. -/
theorem runSteps_all_ok (config : Config) (w : World) (vars : GoMap String)
    (steps : List Step)
    (hall : ∀ j s, steps[j]? = some s → stepSucceeds config w vars j s = true) :
    (runSteps config w vars 0 steps).sent = steps.enum.flatMap (stepBlock config w vars) ∧
    (runSteps config w vars 0 steps).spawned = steps.enum.map
      (fun js => stepCmd config w vars js.1 js.2 (config.Programs.get js.2.Program)) ∧
    (runSteps config w vars 0 steps).ok = true := by
  obtain ⟨t1, t2, t3⟩ := runSteps_take config w vars steps steps.length 0
    (fun j s _ hs => by simpa using hall j s hs)
  simp only [List.take_length, List.drop_length, runSteps, List.append_nil] at t1 t2 t3
  exact ⟨t1, t2, t3⟩

/-- The variables `$file` and `$bsp` that `buildVarMap` sets: the artifact is the file
`<stem>.bsp` joined to the directory `$bspdir`. -/
theorem buildVarMap_bsp (config : Config) (getwd : Option String) (osTempDir vmf : String) :
    (buildVarMap config getwd osTempDir vmf).get "$bsp" =
      filepathJoin [(buildVarMap config getwd osTempDir vmf).get "$bspdir",
        (buildVarMap config getwd osTempDir vmf).get "$file" ++ ".bsp"] := by
  simp [buildVarMap, GoMap.get, List.lookup]

/-- A base name holds a separator only when it is the root. -/
theorem Chars.base_no_sep (p : List Char) : Chars.base p = ['/'] ∨ '/' ∉ Chars.base p := by
  unfold Chars.base
  by_cases hp : p = []
  · right
    simp [hp]
  · simp only [hp, if_false]
    by_cases hb : ((Chars.trimRight p ['/']).reverse.takeWhile (fun c => c ≠ '/')).reverse = []
    · left
      rw [if_pos hb]
    · right
      simp only [hb, if_false, List.mem_reverse]
      intro hmem
      have := List.mem_takeWhile_imp hmem
      simp at this

/-- The file stem that `buildVarMap` computes holds no separator, unless the input is
the root directory itself. -/
theorem buildVarMap_file_no_sep (config : Config) (getwd : Option String)
    (osTempDir vmf : String)
    (h : filepathBase ((buildVarMap config getwd osTempDir vmf).get "$vmf") ≠ "/") :
    '/' ∉ ((buildVarMap config getwd osTempDir vmf).get "$file").data := by
  have hvmf : ∃ abs, (buildVarMap config getwd osTempDir vmf).get "$vmf" = abs ∧
      (buildVarMap config getwd osTempDir vmf).get "$file" =
        (match Chars.lastIndex (filepathBase abs).data '.' with
          | some dot => if dot > 0 then String.mk ((filepathBase abs).data.take dot)
              else filepathBase abs
          | none => filepathBase abs) :=
    ⟨_, rfl, by simp [buildVarMap, GoMap.get, List.lookup]⟩
  obtain ⟨abs, h1, h2⟩ := hvmf
  rw [h1] at h
  rw [h2]
  have hbase : '/' ∉ (filepathBase abs).data := by
    rcases Chars.base_no_sep abs.data with hb | hb
    · exact absurd (String.ext hb) h
    · exact hb
  cases Chars.lastIndex (filepathBase abs).data '.' with
  | none => exact hbase
  | some dot =>
    by_cases hd : dot > 0
    · simp only [hd, if_true]
      exact fun hm => hbase (List.mem_of_mem_take hm)
    · simp only [hd, if_false]
      exact hbase

/-- What is left of a block without its `info` and its output lines: `step_done`. -/
theorem stepBlock_filter_rest (config : Config) (w : World) (vars : GoMap String)
    (js : Nat × Step) :
    (stepBlock config w vars js).filter (fun m => !m.isInfo && !m.isOutput) =
      [Msg.stepDone js.2.Program] := by
  simp [stepBlock, stepRunning, List.filter_cons, List.filter_append, Msg.isInfo,
    Msg.isOutput, List.filter_map, Function.comp_def]

/-- A session that ends before the steps has sent one message, `AUTH_FAILED`,
`ERROR: preset not found`, or an `error` with a reason, and has started no process. -/
theorem startSession_error (config : Config) (store : PresetStore) (w : World)
    (req : CompileRequest) (s : Session) (hs : startSession config store w req = .error s) :
    (((CheckPassword config req.Password).isSome ∧ s.sent = [Msg.text "AUTH_FAILED"]) ∨
      ((CheckPassword config req.Password = none ∧
        (getAllPresets store).find? (fun pr => pr.Name = req.Preset) = none) ∧
        s.sent = [Msg.text "ERROR: preset not found"]) ∨
      ∃ t, t ≠ "" ∧ s.sent = [Msg.error t]) ∧ s.spawned = [] := by
  unfold startSession at hs
  cases h1 : CheckPassword config req.Password with
  | some e =>
    simp only [h1, Except.error.injEq] at hs
    subst hs
    simp
  | none =>
    cases h2 : (getAllPresets store).find? (fun pr => pr.Name = req.Preset) with
    | none =>
      simp only [h1, h2, Except.error.injEq] at hs
      subst hs
      simp
    | some p =>
      by_cases h3 : req.VMFData.length > 0
      · cases h4 : w.mkdirTemp with
        | error e =>
          simp only [h1, h2, h3, h4, if_true, Except.error.injEq] at hs
          subst hs
          exact ⟨Or.inr (Or.inr ⟨_, append_ne_empty _ _ (by decide), rfl⟩), rfl⟩
        | ok d =>
          simp only [h1, h2, h3, h4, if_true] at hs
          cases h5 : w.writeFile
              (filepathJoin [d, filepathBase (if req.VMFName = "" then "uploaded.vmf"
                else req.VMFName)]) req.VMFData with
          | some e =>
            simp only [h5, Except.error.injEq] at hs
            subst hs
            exact ⟨Or.inr (Or.inr ⟨_, append_ne_empty _ _ (by decide), rfl⟩), rfl⟩
          | none => simp [h5] at hs
      · simp [h1, h2, h3] at hs

/-- The compile part: after `Starting compile...` and the messages of the loop it
sends nothing more when a step failed, and otherwise the artifact and `done`, or the
`error` of a failed read. -/
theorem compile_cases (config : Config) (w : World) (vmfPath : String) (p : Preset) :
    (compile config w vmfPath p).2 =
      (runSteps config w (buildVarMap config w.getwd w.tempDir vmfPath) 0 p.Steps).spawned ∧
    (((runSteps config w (buildVarMap config w.getwd w.tempDir vmfPath) 0 p.Steps).ok = false ∧
      (compile config w vmfPath p).1 = Msg.info "Starting compile..." ::
        (runSteps config w (buildVarMap config w.getwd w.tempDir vmfPath) 0 p.Steps).sent) ∨
    ((runSteps config w (buildVarMap config w.getwd w.tempDir vmfPath) 0 p.Steps).ok = true ∧
      ((∃ b, w.readFile ((buildVarMap config w.getwd w.tempDir vmfPath).get "$bsp") = .ok b ∧
        (compile config w vmfPath p).1 = Msg.info "Starting compile..." ::
          (runSteps config w (buildVarMap config w.getwd w.tempDir vmfPath) 0 p.Steps).sent
          ++ [Msg.bsp (filepathBase ((buildVarMap config w.getwd w.tempDir vmfPath).get "$bsp"))
                (base64Encode b), Msg.done]) ∨
       (∃ e, w.readFile ((buildVarMap config w.getwd w.tempDir vmfPath).get "$bsp") = .error e ∧
        (compile config w vmfPath p).1 = Msg.info "Starting compile..." ::
          (runSteps config w (buildVarMap config w.getwd w.tempDir vmfPath) 0 p.Steps).sent
          ++ [Msg.error ("failed to read bsp: " ++ e)])))) := by
  have hne : (buildVarMap config w.getwd w.tempDir vmfPath).get "$bsp" ≠ "" := by
    rw [buildVarMap_bsp]
    exact filepathJoin_bsp_ne_empty _ _
  cases hok : (runSteps config w (buildVarMap config w.getwd w.tempDir vmfPath) 0 p.Steps).ok with
  | false =>
    refine ⟨by simp [compile, hok], Or.inl ⟨rfl, by simp [compile, hok]⟩⟩
  | true =>
    cases hr : w.readFile ((buildVarMap config w.getwd w.tempDir vmfPath).get "$bsp") with
    | ok b =>
      refine ⟨by simp [compile, hok, hne, hr], Or.inr ⟨rfl, Or.inl ⟨b, rfl, ?_⟩⟩⟩
      simp [compile, hok, hne, hr]
    | error e =>
      refine ⟨by simp [compile, hok, hne, hr], Or.inr ⟨rfl, Or.inr ⟨e, rfl, ?_⟩⟩⟩
      simp [compile, hok, hne, hr]

/-- The last of a list that ends with two given elements. -/
theorem getLast?_append_pair {α : Type} (l : List α) (a b : α) :
    (l ++ [a, b]).getLast? = some b := by
  have h : l ++ [a, b] = (l ++ [a]) ++ [b] := by simp
  rw [h]
  exact List.getLast?_concat _

/-- C2, amended. In a session that gets as far as the steps of its preset (possibly
none), when every step succeeds, the artifact file is readable and the file stem of the
input holds no separator (every input but the root directory), the messages sent other than
`info` messages and captured output lines are exactly: one `step_done` per step, in
preset order, with the step's program key; then one `bsp` whose name is `<stem>.bsp`
for the file stem of the input and whose data is the
base64 encoding of the bytes of the artifact file; then `done`, which is the last
message.  And `done` is sent only in a session that got to the steps and all of whose
steps succeeded. -/
theorem success_sends_artifact_then_done (config : Config) (store : PresetStore) (w : World)
    (req : CompileRequest) :
    (∀ (st : Started) (vars : GoMap String) (bytes : List UInt8),
      startSession config store w req = .ok st →
      vars = buildVarMap config w.getwd w.tempDir st.vmfPath →
      (∀ j s, st.preset.Steps[j]? = some s → stepSucceeds config w vars j s = true) →
      w.readFile (vars.get "$bsp") = .ok bytes →
      '/' ∉ (vars.get "$file").data →
      (handleSocket config store w req).sent.filter (fun m => !m.isInfo && !m.isOutput) =
        st.preset.Steps.map (fun s => Msg.stepDone s.Program)
          ++ [Msg.bsp (vars.get "$file" ++ ".bsp") (base64Encode bytes), Msg.done] ∧
      (handleSocket config store w req).sent.getLast? = some Msg.done) ∧
    (Msg.done ∈ (handleSocket config store w req).sent →
      ∃ st, startSession config store w req = .ok st ∧
        ∀ j s, st.preset.Steps[j]? = some s →
          stepSucceeds config w (buildVarMap config w.getwd w.tempDir st.vmfPath) j s
            = true) := by
  constructor
  · intro st vars bytes hst hv hall hread hstem
    subst hv
    obtain ⟨a1, _, a3⟩ := runSteps_all_ok config w _ st.preset.Steps hall
    have hname : filepathBase ((buildVarMap config w.getwd w.tempDir st.vmfPath).get "$bsp") =
        (buildVarMap config w.getwd w.tempDir st.vmfPath).get "$file" ++ ".bsp" := by
      rw [buildVarMap_bsp]
      exact filepathBase_join_bsp _ _ hstem
    have hsent : (handleSocket config store w req).sent =
        (st.sent ++ Msg.info "Starting compile..." ::
          st.preset.Steps.enum.flatMap
            (stepBlock config w (buildVarMap config w.getwd w.tempDir st.vmfPath)))
        ++ [Msg.bsp ((buildVarMap config w.getwd w.tempDir st.vmfPath).get "$file" ++ ".bsp")
              (base64Encode bytes), Msg.done] := by
      rw [handleSocket_started config store w req st hst]
      rcases (compile_cases config w st.vmfPath st.preset).2 with ⟨hf, _⟩ | ⟨_, hc⟩
      · rw [a3] at hf
        cases hf
      · rcases hc with ⟨b, hb, hc⟩ | ⟨e, he, _⟩
        · rw [hread] at hb
          cases hb
          simp only [hc, a1, hname]
          simp
        · rw [hread] at he
          cases he
    have hpre : st.sent.filter (fun m => !m.isInfo && !m.isOutput) = [] := by
      rcases startSession_sent config store w req st hst with h | ⟨t, h⟩ <;>
        simp [h, Msg.isInfo]
    constructor
    · rw [hsent]
      simp only [List.filter_append, List.filter_cons, hpre, List.filter_flatMap,
        stepBlock_filter_rest, List.nil_append, List.enum]
      rw [enumFrom_flatMap_singleton (fun s : Step => Msg.stepDone s.Program)]
      simp [Msg.isInfo, Msg.isOutput]
    · rw [hsent]
      exact getLast?_append_pair _ _ _
  · intro hdone
    cases hst : startSession config store w req with
    | error s =>
      have hs : handleSocket config store w req = s := by simp [handleSocket, hst]
      rw [hs] at hdone
      rcases (startSession_error config store w req s hst).1 with
        ⟨_, h⟩ | ⟨_, h⟩ | ⟨t, _, h⟩ <;> simp [h] at hdone
    | ok st =>
      refine ⟨st, rfl, ?_⟩
      rw [handleSocket_started config store w req st hst] at hdone
      simp only [List.mem_append] at hdone
      have hpre : Msg.done ∉ st.sent := by
        rcases startSession_sent config store w req st hst with h | ⟨t, h⟩ <;> simp [h]
      rcases hdone with hdone | hdone
      · exact absurd hdone hpre
      · rcases (compile_cases config w st.vmfPath st.preset).2 with ⟨_, hc⟩ | ⟨hok, _⟩
        · rw [hc] at hdone
          simp only [List.mem_cons] at hdone
          rcases hdone with hdone | hdone
          · cases hdone
          · rcases runSteps_kinds config w _ st.preset.Steps 0 _ hdone with
              ⟨t, h⟩ | ⟨t, _, h⟩ | ⟨s, _, l, h⟩ | ⟨s, _, h⟩ <;> cases h
        · intro j s hs
          simpa using runSteps_ok_imp config w _ st.preset.Steps 0 hok j s hs

/-- Witness of C2, amended: the preset `[vbsp, vrad]` with the input `maps/test.vmf` gives
`step_done` for `vbsp`, `step_done` for `vrad`, the `bsp` message named `test.bsp` with
the base64 of the three bytes of the artifact, then `done`. -/
theorem success_sends_artifact_then_done_witness :
    (handleSocket sampleConfig sampleStore sampleWorld sampleRequest).sent.filter
        (fun m => !m.isInfo && !m.isOutput) =
      [Msg.stepDone "vbsp", Msg.stepDone "vrad", Msg.bsp "test.bsp" "TWFu", Msg.done] ∧
    (handleSocket sampleConfig sampleStore sampleWorld sampleRequest).sent.getLast? =
      some Msg.done :=
  have h := (success_sends_artifact_then_done sampleConfig sampleStore sampleWorld
    sampleRequest).1
    { preset := samplePreset, vmfPath := "maps/test.vmf", tmpDir := none, sent := [] }
    (buildVarMap sampleConfig sampleWorld.getwd sampleWorld.tempDir "maps/test.vmf")
    [77, 97, 110] (by rfl) rfl
    (by
      intro j s hs
      have hj : j < 2 := (List.getElem?_eq_some_iff.1 hs).1
      have hj0 : j = 0 ∨ j = 1 := by omega
      rcases hj0 with hj0 | hj0
      · subst hj0
        have hs2 : s = { Program := "vbsp", Args := ["$vmf"] } := by
          simpa [samplePreset] using hs.symm
        subst hs2
        decide
      · subst hj0
        have hs2 : s = { Program := "vrad", Args := ["$bsp"] } := by
          simpa [samplePreset] using hs.symm
        subst hs2
        decide)
    (by rfl) (by decide)
  ⟨h.1.trans (by decide), h.2⟩

/-- A session that gets as far as the steps has passed the credential check and runs
the preset found under the requested name. -/
theorem startSession_ok_preset (config : Config) (store : PresetStore) (w : World)
    (req : CompileRequest) (st : Started) (hst : startSession config store w req = .ok st) :
    CheckPassword config req.Password = none ∧
    (getAllPresets store).find? (fun pr => pr.Name = req.Preset) = some st.preset := by
  unfold startSession at hst
  cases h1 : CheckPassword config req.Password with
  | some e => simp [h1] at hst
  | none =>
    cases h2 : (getAllPresets store).find? (fun pr => pr.Name = req.Preset) with
    | none => simp [h1, h2] at hst
    | some p =>
      by_cases h3 : req.VMFData.length > 0
      · cases h4 : w.mkdirTemp with
        | error e => simp [h1, h2, h3, h4] at hst
        | ok d =>
          simp only [h1, h2, h3, h4, if_true] at hst
          cases h5 : w.writeFile
              (filepathJoin [d, filepathBase (if req.VMFName = "" then "uploaded.vmf"
                else req.VMFName)]) req.VMFData with
          | some e => simp [h5] at hst
          | none =>
            simp only [h5, Except.ok.injEq] at hst
            exact ⟨rfl, by rw [← hst]⟩
      · simp only [h1, h2, h3, if_false, Except.ok.injEq] at hst
        exact ⟨rfl, by rw [← hst]⟩

/-- When a step has failed, the last message of the loop is an `error` with a reason. -/
theorem runSteps_fail_last (config : Config) (w : World) (vars : GoMap String)
    (steps : List Step) : ∀ (k : Nat), (runSteps config w vars k steps).ok = false →
      ∃ reason, reason ≠ "" ∧
        (runSteps config w vars k steps).sent.getLast? = some (Msg.error reason) := by
  induction steps with
  | nil => intro k h; simp [runSteps] at h
  | cons s rest ih =>
    intro k h
    cases hok : stepSucceeds config w vars k s with
    | true =>
      obtain ⟨e1, _, e3⟩ := runSteps_cons_ok config w vars k s rest hok
      rw [e3] at h
      obtain ⟨reason, hr, hl⟩ := ih (k + 1) h
      exact ⟨reason, hr, by rw [e1, List.getLast?_append, hl]; rfl⟩
    | false =>
      obtain ⟨_, _, reason, hr, _, hsent⟩ := runSteps_cons_fail config w vars k s rest hok
      exact ⟨reason, hr, by rw [hsent]; exact List.getLast?_concat _⟩

/-- C9 (the path that breaks it). An upload is received, `os.MkdirTemp` creates
`/tmp/maprelay-1`, and writing the uploaded file into it fails: the session reports
the error and ends without giving the directory to `os.RemoveAll`, because the removal
is only deferred after the write has succeeded. -/
theorem upload_write_failure_keeps_tmpDir :
    handleSocket sampleConfig sampleStore
        { sampleWorld with writeFile := fun _ _ => some "no space left on device" }
        { sampleRequest with VMFName := "test.vmf", VMFData := [1, 2, 3] } =
      { sent := [Msg.error "failed to write uploaded vmf: no space left on device"],
        spawned := [], tmpDir := some "/tmp/maprelay-1", removed := [] } := by
  decide

/-- On the other exit paths the directory is removed: a session that gets as far as the
steps gives its temporary directory, if it has one, to `os.RemoveAll` when it ends,
whether the steps and the read of the artifact succeed or not. -/
theorem started_session_removes_tmpDir (config : Config) (store : PresetStore) (w : World)
    (req : CompileRequest) (st : Started) (hst : startSession config store w req = .ok st) :
    (handleSocket config store w req).tmpDir = st.tmpDir ∧
    (handleSocket config store w req).removed = st.tmpDir.toList := by
  rw [handleSocket_started config store w req st hst]
  exact ⟨rfl, rfl⟩

/-- C10 as stated fails: with the credential `secret` configured and an empty credential
in the request, the only message the session writes is the plain text `AUTH_FAILED`,
which is not a JSON object and carries no kind. -/
theorem auth_failure_reply_is_plain_text :
    ¬ (∀ m ∈ (handleSocket sampleConfig sampleStore sampleWorld
          { sampleRequest with Password := "" }).sent,
        (Msg.wire m).kind.isSome = true) := by
  decide

/-- C10, amended. A failed credential check is answered by the plain text `AUTH_FAILED`
alone and an unknown preset name by the plain text `ERROR: preset not found` alone.  In
every other session (credential accepted, preset found) every message written is a
JSON object that carries a kind, one of `info`, `error`, `step_done`, `done`, `bsp` or
the program key of a step of the preset, and the session ends either with `done` or
with an `error` that carries a non-empty reason. -/
theorem session_messages_tagged (config : Config) (store : PresetStore) (w : World)
    (req : CompileRequest) :
    ((CheckPassword config req.Password).isSome →
      (handleSocket config store w req).sent = [Msg.text "AUTH_FAILED"]) ∧
    (CheckPassword config req.Password = none →
      (getAllPresets store).find? (fun pr => pr.Name = req.Preset) = none →
      (handleSocket config store w req).sent = [Msg.text "ERROR: preset not found"]) ∧
    (∀ p, CheckPassword config req.Password = none →
      (getAllPresets store).find? (fun pr => pr.Name = req.Preset) = some p →
      (∀ m ∈ (handleSocket config store w req).sent,
        ∃ k, (Msg.wire m).kind = some k ∧
          (k ∈ ["info", "error", "step_done", "done", "bsp"] ∨ ∃ s ∈ p.Steps, k = s.Program)) ∧
      ((handleSocket config store w req).sent.getLast? = some Msg.done ∨
        ∃ reason, reason ≠ "" ∧
          (handleSocket config store w req).sent.getLast? = some (Msg.error reason) ∧
          (Msg.wire (Msg.error reason)) =
            Frame.object [("type", "error"), ("message", reason)])) := by
  refine ⟨?_, ?_, ?_⟩
  · intro h
    cases hc : CheckPassword config req.Password with
    | none => simp [hc] at h
    | some e => simp [handleSocket, startSession, hc]
  · intro h1 h2
    simp [handleSocket, startSession, h1, h2]
  · intro p h1 h2
    cases hst : startSession config store w req with
    | error s =>
      have hs : handleSocket config store w req = s := by simp [handleSocket, hst]
      rw [hs]
      rcases (startSession_error config store w req s hst).1 with
        ⟨h, _⟩ | ⟨⟨_, h⟩, _⟩ | ⟨t, ht, h⟩
      · simp [h1] at h
      · rw [h2] at h
        cases h
      · rw [h]
        refine ⟨?_, Or.inr ⟨t, ht, rfl, rfl⟩⟩
        intro m hm
        rw [List.mem_singleton] at hm
        subst hm
        exact ⟨"error", rfl, Or.inl (by simp)⟩
    | ok st =>
      have hp : st.preset = p := by
        have := (startSession_ok_preset config store w req st hst).2
        rw [h2] at this
        exact (Option.some.inj this).symm
      rw [handleSocket_started config store w req st hst]
      simp only
      have hpre : ∀ m ∈ st.sent, ∃ t, m = Msg.info t := by
        intro m hm
        rcases startSession_sent config store w req st hst with h | ⟨t, h⟩
        · simp [h] at hm
        · rw [h, List.mem_singleton] at hm
          exact ⟨t, hm⟩
      have hloop : ∀ m ∈ (runSteps config w (buildVarMap config w.getwd w.tempDir st.vmfPath)
          0 st.preset.Steps).sent,
          ∃ k, (Msg.wire m).kind = some k ∧
            (k ∈ ["info", "error", "step_done", "done", "bsp"] ∨
              ∃ s ∈ p.Steps, k = s.Program) := by
        intro m hm
        rcases runSteps_kinds config w _ st.preset.Steps 0 m hm with
          ⟨t, h⟩ | ⟨t, _, h⟩ | ⟨s, hs, l, h⟩ | ⟨s, _, h⟩
        · exact ⟨"info", by rw [h]; rfl, Or.inl (by simp)⟩
        · exact ⟨"error", by rw [h]; rfl, Or.inl (by simp)⟩
        · exact ⟨s.Program, by rw [h]; rfl, Or.inr ⟨s, hp ▸ hs, rfl⟩⟩
        · exact ⟨"step_done", by rw [h]; rfl, Or.inl (by simp)⟩
      have hhead : ∀ m, m ∈ st.sent ∨ m = Msg.info "Starting compile..." →
          ∃ k, (Msg.wire m).kind = some k ∧
            (k ∈ ["info", "error", "step_done", "done", "bsp"] ∨
              ∃ s ∈ p.Steps, k = s.Program) := by
        intro m hm
        rcases hm with hm | hm
        · obtain ⟨t, h⟩ := hpre m hm
          exact ⟨"info", by rw [h]; rfl, Or.inl (by simp)⟩
        · exact ⟨"info", by rw [hm]; rfl, Or.inl (by simp)⟩
      rcases (compile_cases config w st.vmfPath st.preset).2 with
        ⟨hok, hc⟩ | ⟨_, ⟨b, _, hc⟩ | ⟨e, _, hc⟩⟩
      · rw [hc]
        constructor
        · intro m hm
          simp only [List.mem_append, List.mem_cons] at hm
          rcases hm with hm | hm | hm
          · exact hhead m (Or.inl hm)
          · exact hhead m (Or.inr hm)
          · exact hloop m hm
        · obtain ⟨reason, hr, hl⟩ := runSteps_fail_last config w _ st.preset.Steps 0 hok
          refine Or.inr ⟨reason, hr, ?_, rfl⟩
          have hne : (runSteps config w (buildVarMap config w.getwd w.tempDir st.vmfPath)
              0 st.preset.Steps).sent ≠ [] := by
            intro e
            rw [e] at hl
            cases hl
          obtain ⟨x, xs, hx⟩ := List.exists_cons_of_ne_nil hne
          rw [List.getLast?_append, hx, List.getLast?_cons_cons, ← hx, hl]
          rfl
      · rw [hc]
        constructor
        · intro m hm
          simp only [List.mem_append, List.mem_cons, List.not_mem_nil, or_false] at hm
          rcases hm with hm | (hm | hm) | hm | hm
          · exact hhead m (Or.inl hm)
          · exact hhead m (Or.inr hm)
          · exact hloop m hm
          · exact ⟨"bsp", by rw [hm]; rfl, Or.inl (by simp)⟩
          · exact ⟨"done", by rw [hm]; rfl, Or.inl (by simp)⟩
        · left
          rw [← List.append_assoc]
          exact getLast?_append_pair _ _ _
      · rw [hc]
        constructor
        · intro m hm
          simp only [List.mem_append, List.mem_cons, List.not_mem_nil, or_false] at hm
          rcases hm with hm | (hm | hm) | hm
          · exact hhead m (Or.inl hm)
          · exact hhead m (Or.inr hm)
          · exact hloop m hm
          · exact ⟨"error", by rw [hm]; rfl, Or.inl (by simp)⟩
        · refine Or.inr ⟨"failed to read bsp: " ++ e, append_ne_empty _ _ (by decide), ?_, rfl⟩
          rw [← List.append_assoc]
          exact List.getLast?_concat _

/-- Witness of C10, amended: the session of the end-to-end scenario writes JSON objects
only, with the kinds `info`, `vbsp`, `vrad`, `step_done`, `bsp`, `done`, and ends with
`done`. -/
theorem session_messages_tagged_witness :
    (∀ m ∈ (handleSocket sampleConfig sampleStore sampleWorld sampleRequest).sent,
      ∃ k, (Msg.wire m).kind = some k ∧
        (k ∈ ["info", "error", "step_done", "done", "bsp"] ∨
          ∃ s ∈ samplePreset.Steps, k = s.Program)) ∧
    (handleSocket sampleConfig sampleStore sampleWorld sampleRequest).sent.map
        (fun m => (Msg.wire m).kind) =
      [some "info", some "info", some "vbsp", some "step_done", some "info", some "vrad",
       some "step_done", some "bsp", some "done"] :=
  ⟨((session_messages_tagged sampleConfig sampleStore sampleWorld sampleRequest).2.2
      samplePreset (by decide) (by decide)).1, by decide⟩

/-- A text in which the first character of `old` does not occur is left as it is. -/
theorem Chars.replaceGo_of_not_mem (c : Char) (old new : List Char) (s : List Char)
    (h : c ∉ s) : Chars.replaceGo (c :: old) new 0 s = s := by
  induction s with
  | nil => rfl
  | cons x xs ih =>
    have hx : ¬ c = x := fun e => h (by simp [e])
    have hxs : c ∉ xs := fun e => h (by simp [e])
    simp [Chars.replaceGo, hx, ih hxs]

/-- Replacing a token that starts with `$` in a text without `$` changes nothing. -/
theorem replaceAll_of_no_dollar (s k v : String) (hs : '$' ∉ s.data)
    (hk : ∃ rest, k.data = '$' :: rest) : replaceAll s k v = s := by
  obtain ⟨rest, hk⟩ := hk
  simp only [replaceAll, Chars.replaceAll, hk, List.cons_ne_nil, if_false]
  rw [Chars.replaceGo_of_not_mem '$' rest v.data s.data hs]

/-- Every token of the fixed order starts with `$`. -/
theorem expandOrder_dollar : ∀ k ∈ expandOrder, ∃ rest, k.data = '$' :: rest := by
  intro k hk
  simp only [expandOrder, List.mem_cons, List.mem_singleton, List.not_mem_nil, or_false] at hk
  rcases hk with h | h | h | h | h | h | h | h | h | h | h <;> subst h <;> exact ⟨_, rfl⟩

/-- A fold whose steps all leave `x` as it is returns `x`. -/
theorem foldl_fixed {α β : Type} (f : β → α → β) (x : β) (l : List α)
    (h : ∀ a ∈ l, f x a = x) : l.foldl f x = x := by
  induction l with
  | nil => rfl
  | cons a rest ih =>
    rw [List.foldl_cons, h a (by simp)]
    exact ih (fun b hb => h b (List.mem_cons_of_mem _ hb))

/-- One step of the first loop of `expandString` on a text without `$`. -/
theorem expand_step_fixed (vars : GoMap String) (s : String) (hs : '$' ∉ s.data) :
    ∀ k ∈ expandOrder,
      (match vars.get? k with
        | some v => replaceAll s k v
        | none => s) = s := by
  intro k hk
  cases vars.get? k with
  | none => rfl
  | some v => exact replaceAll_of_no_dollar s k v hs (expandOrder_dollar k hk)

/-- The second loop of `expandString` does nothing when every key of the map is one of
the tokens of the fixed order. -/
theorem expand_rest_fixed (vars : GoMap String) (hkeys : ∀ k ∈ vars.keys, k ∈ expandOrder)
    (s : String) :
    vars.foldl (fun res kv => if kv.1 ∈ expandOrder then res else replaceAll res kv.1 kv.2) s
      = s := by
  apply foldl_fixed
  intro kv hkv
  have : kv.1 ∈ expandOrder := hkeys kv.1 (List.mem_map.2 ⟨kv, hkv, rfl⟩)
  simp [this]

/-- With keys in the fixed order only, `expandString` is its first loop. -/
theorem expandString_fixed_keys (vars : GoMap String)
    (hkeys : ∀ k ∈ vars.keys, k ∈ expandOrder) (s : String) (hs : s ≠ "") :
    expandString s vars = expandOrder.foldl
      (fun res k => match vars.get? k with
        | some v => replaceAll res k v
        | none => res) s := by
  simp only [expandString, hs, if_false]
  exact expand_rest_fixed vars hkeys _

/-- C4. In the fixed substitution order no token stands before a token of which it is
a proper beginning: `$gamedir` comes before `$game` and `$bspdir` before `$bsp`.  So,
for every variable map (its keys are tokens of the fixed set) that defines both
`$gamedir` and `$game` with values without `$`, the template `$gamedir` expands to
exactly the value of `$gamedir`; and likewise `$bspdir` expands to exactly the value of
`$bspdir` when the map defines `$bspdir` and `$bsp`. -/
theorem expandString_longer_token_first (vars : GoMap String)
    (hkeys : ∀ k ∈ vars.keys, k ∈ expandOrder) :
    expandOrder.Pairwise (fun a b => ¬ (a.data <+: b.data ∧ a ≠ b)) ∧
    expandOrder.indexOf "$gamedir" < expandOrder.indexOf "$game" ∧
    expandOrder.indexOf "$bspdir" < expandOrder.indexOf "$bsp" ∧
    (∀ vg v, vars.get? "$gamedir" = some vg → vars.get? "$game" = some v →
      '$' ∉ vg.data → '$' ∉ v.data → expandString "$gamedir" vars = vg) ∧
    (∀ vb v, vars.get? "$bspdir" = some vb → vars.get? "$bsp" = some v →
      '$' ∉ vb.data → '$' ∉ v.data → expandString "$bspdir" vars = vb) := by
  refine ⟨by decide, by decide, by decide, ?_, ?_⟩
  · intro vg v hg _ hvg _
    have h1 : replaceAll "$gamedir" "$gamedir" vg = vg := by
      simp [replaceAll, Chars.replaceAll, Chars.replaceGo]
    rw [expandString_fixed_keys vars hkeys _ (by decide)]
    have hord : expandOrder = "$gamedir" :: expandOrder.tail := rfl
    rw [hord, List.foldl_cons]
    simp only [hg, h1]
    exact foldl_fixed _ vg _ (fun k hk =>
      expand_step_fixed vars vg hvg k (List.mem_of_mem_tail hk))
  · intro vb v hb _ hvb _
    have h0 : ∀ x, replaceAll "$bspdir" "$gamedir" x = "$bspdir" := by
      intro x
      simp [replaceAll, Chars.replaceAll, Chars.replaceGo]
    have h1 : replaceAll "$bspdir" "$bspdir" vb = vb := by
      simp [replaceAll, Chars.replaceAll, Chars.replaceGo]
    have hfirst : (match vars.get? "$gamedir" with
        | some x => replaceAll "$bspdir" "$gamedir" x
        | none => "$bspdir") = "$bspdir" := by
      cases vars.get? "$gamedir" with
      | none => rfl
      | some x => exact h0 x
    rw [expandString_fixed_keys vars hkeys _ (by decide)]
    have hord : expandOrder = "$gamedir" :: "$bspdir" :: expandOrder.tail.tail := rfl
    rw [hord, List.foldl_cons, List.foldl_cons]
    simp only [hfirst, hb, h1]
    exact foldl_fixed _ vb _ (fun k hk =>
      expand_step_fixed vars vb hvb k (List.mem_of_mem_tail (List.mem_of_mem_tail hk)))

/-- Witness of C4: with `$gamedir` and `$game` both set to `/games/gmod`, the template
`$gamedir` expands to `/games/gmod`, not to `/games/gmoddir`; and `$bspdir` expands to
the directory, not to the artifact path followed by `dir`. -/
theorem expandString_longer_token_first_witness :
    expandString "$gamedir"
        [("$game", "/games/gmod"), ("$gamedir", "/games/gmod"), ("$bsp", "/m/a.bsp"),
         ("$bspdir", "/m")] = "/games/gmod" ∧
    expandString "$bspdir"
        [("$game", "/games/gmod"), ("$gamedir", "/games/gmod"), ("$bsp", "/m/a.bsp"),
         ("$bspdir", "/m")] = "/m" :=
  ⟨(expandString_longer_token_first
      [("$game", "/games/gmod"), ("$gamedir", "/games/gmod"), ("$bsp", "/m/a.bsp"),
       ("$bspdir", "/m")] (by decide)).2.2.2.1 "/games/gmod" "/games/gmod" (by decide)
      (by decide) (by decide) (by decide),
   (expandString_longer_token_first
      [("$game", "/games/gmod"), ("$gamedir", "/games/gmod"), ("$bsp", "/m/a.bsp"),
       ("$bspdir", "/m")] (by decide)).2.2.2.2 "/m" "/m/a.bsp" (by decide)
      (by decide) (by decide) (by decide)⟩

/-- The elements of a path hold no separator. -/
theorem Chars.splitSep_no_sep (p : List Char) : ∀ e ∈ Chars.splitSep p, '/' ∉ e := by
  induction p with
  | nil => simp [Chars.splitSep]
  | cons a rest ih =>
    by_cases ha : a = '/'
    · simpa [Chars.splitSep, ha] using ih
    · simp only [Chars.splitSep, ha, if_false]
      cases hs : Chars.splitSep rest with
      | nil => simp [Ne.symm ha]
      | cons x xs =>
        rw [hs] at ih
        intro e he
        simp only [List.mem_cons] at he
        rcases he with he | he
        · subst he
          have := ih x (by simp)
          simp [Ne.symm ha, this]
        · exact ih e (by simp [he])

/-- The clean-up keeps proper elements only: none is empty, none holds a separator. -/
theorem Chars.cleanStep_keeps (rooted : Bool) (stack : List (List Char)) (e : List Char)
    (he : '/' ∉ e) (hstack : ∀ x ∈ stack, x ≠ [] ∧ '/' ∉ x) :
    ∀ x ∈ Chars.cleanStep rooted stack e, x ≠ [] ∧ '/' ∉ x := by
  unfold Chars.cleanStep
  by_cases h1 : e = [] ∨ e = ['.']
  · simpa [h1] using hstack
  · have h0 : e ≠ [] := fun h => h1 (Or.inl h)
    by_cases h2 : e = ['.', '.']
    · subst h2
      have hcond : ¬ ((['.', '.'] : List Char) = [] ∨ (['.', '.'] : List Char) = ['.']) := by
        decide
      simp only [hcond, if_false, if_true]
      cases stack with
      | nil =>
        cases rooted <;> simp
      | cons top rest =>
        by_cases h3 : top = ['.', '.']
        · simp only [h3, if_true]
          intro x hx
          simp only [List.mem_cons] at hx
          rcases hx with hx | hx | hx
          · subst hx; simp
          · subst hx; simp
          · exact hstack x (by simp [hx])
        · simp only [h3, if_false]
          intro x hx
          exact hstack x (by simp [hx])
    · simp only [h1, if_false, h2]
      intro x hx
      simp only [List.mem_cons] at hx
      rcases hx with hx | hx
      · subst hx
        exact ⟨h0, he⟩
      · exact hstack x hx

/-- The clean-up of a whole list of elements keeps proper elements only. -/
theorem Chars.foldl_cleanStep_keeps (rooted : Bool) (es : List (List Char))
    (hes : ∀ e ∈ es, '/' ∉ e) :
    ∀ (stack : List (List Char)), (∀ x ∈ stack, x ≠ [] ∧ '/' ∉ x) →
      ∀ x ∈ es.foldl (Chars.cleanStep rooted) stack, x ≠ [] ∧ '/' ∉ x := by
  induction es with
  | nil => intro stack h; simpa using h
  | cons e rest ih =>
    intro stack h
    rw [List.foldl_cons]
    exact ih (fun x hx => hes x (List.mem_cons_of_mem _ hx)) _
      (Chars.cleanStep_keeps rooted stack e (hes e (by simp)) h)

/-- Trimming separators off a text that ends with a proper element changes nothing. -/
theorem Chars.trimRight_append (pre c : List Char) (hc : c ≠ []) (hs : '/' ∉ c) :
    Chars.trimRight (pre ++ c) ['/'] = pre ++ c := by
  have hrev : c.reverse ≠ [] := by simpa using hc
  obtain ⟨a, l, hal⟩ := List.exists_cons_of_ne_nil hrev
  have ha : a ≠ '/' := by
    intro e
    have : a ∈ c.reverse := by rw [hal]; simp
    exact hs (by simpa [e] using this)
  simp only [Chars.trimRight, List.reverse_append, hal, List.cons_append]
  rw [List.dropWhile_cons_of_neg (by simpa using ha)]
  rw [← List.cons_append, ← hal, ← List.reverse_append, List.reverse_reverse]

/-- A cleaned path ends with a separator only when it is the root. -/
theorem Chars.clean_trimRight (p : List Char) :
    Chars.clean p = ['/'] ∨ Chars.trimRight (Chars.clean p) ['/'] = Chars.clean p := by
  have hinv := Chars.foldl_cleanStep_keeps (['/'].isPrefixOf p) (Chars.splitSep p)
    (Chars.splitSep_no_sep p) [] (by simp)
  unfold Chars.clean
  simp only
  cases hstack : (Chars.splitSep p).foldl (Chars.cleanStep (['/'].isPrefixOf p)) [] with
  | nil =>
    by_cases hr : (['/'].isPrefixOf p) = true
    · left
      simp [hr, Chars.joinSep]
    · right
      simp only [hr, List.reverse_nil, Chars.joinSep, List.append_nil, if_true]
      decide
  | cons c rest =>
    right
    rw [hstack] at hinv
    have hc := hinv c (by simp)
    obtain ⟨pre0, hj, _⟩ := Chars.joinSep_concat rest.reverse c
    rw [List.reverse_cons, hj, ← List.append_assoc]
    have hne : ((if (['/'].isPrefixOf p) = true then ['/'] else []) ++ pre0) ++ c ≠ [] := by
      simp [hc.1]
    rw [if_neg hne]
    exact Chars.trimRight_append _ c hc.1 hc.2

/-- The last index of a character that does not occur. -/
theorem Chars.lastIndex_of_not_mem (s : List Char) (c : Char) (h : c ∉ s) :
    Chars.lastIndex s c = none := by
  induction s with
  | nil => rfl
  | cons x xs ih =>
    have hx : ¬ x = c := fun e => h (by simp [e])
    have hxs : c ∉ xs := fun e => h (by simp [e])
    simp [Chars.lastIndex, ih hxs, hx]

/-- The last index of `c` in `stem ++ c :: ext`, when `c` does not occur in `ext`. -/
theorem Chars.lastIndex_append (stem ext : List Char) (c : Char) (h : c ∉ ext) :
    Chars.lastIndex (stem ++ c :: ext) c = some stem.length := by
  induction stem with
  | nil => simp [Chars.lastIndex, Chars.lastIndex_of_not_mem ext c h]
  | cons x xs ih => simp [Chars.lastIndex, ih]

/-- The directory of a path, when it is not the root, has no separator at its end. -/
theorem trimRight_filepathDir (p : String) (h : filepathDir p ≠ "/") :
    trimRight (filepathDir p) "/" = filepathDir p := by
  rcases Chars.clean_trimRight ((p.data.reverse.dropWhile (fun c => c ≠ '/')).reverse) with
    hc | hc
  · exfalso
    apply h
    simp only [filepathDir, Chars.dir]
    exact String.ext hc
  · simp only [trimRight, filepathDir, Chars.dir]
    exact String.ext hc

/-- C7 (the input on which it fails). For the absolute input `/x.vmf`, which lies in the
root directory, `buildVarMap` sets `$path`, `$mapdir` and `$bspdir` to the empty text,
not to the directory `/` that contains the input, and `$bsp` to the relative path
`x.bsp`, not to `/x.bsp`; the configured override `/out` plays no part. -/
theorem buildVarMap_root_input :
    filepathDir "/x.vmf" = "/" ∧
    (buildVarMap { sampleConfig with BspDir := "/out" } (some "/srv") "/tmp" "/x.vmf") =
      [("$path", ""), ("$mapdir", ""), ("$file", "x"), ("$name", "x"), ("$tmp", "/tmp"),
       ("$gamedir", ""), ("$game", ""), ("$bspdir", ""), ("$bsp", "x.bsp"),
       ("$exedir", ""), ("$vmf", "/x.vmf")] ∧
    filepathJoin ["/", "x.bsp"] = "/x.bsp" := by
  decide

/-- Away from the root directory the variables are as C7 says.  For an absolute input
whose directory is not the root: `$vmf` is the (cleaned) absolute input path; `$bspdir`,
`$path` and `$mapdir` are the directory that contains it, whatever the configuration
(the override `BspDir` is not read); `$bsp` is the file `<stem>.bsp` joined to that
directory, with `<stem>` the value of `$file` and `$name`: the base name up to its last
dot when something stands before that dot, the whole base name when it has no dot. -/
theorem buildVarMap_beside_input (config : Config) (getwd : Option String)
    (osTempDir vmf : String) (habs : filepathIsAbs vmf = true)
    (hroot : filepathDir (filepathClean vmf) ≠ "/") :
    (buildVarMap config getwd osTempDir vmf).get "$vmf" = filepathClean vmf ∧
    (buildVarMap config getwd osTempDir vmf).get "$bspdir" = filepathDir (filepathClean vmf) ∧
    (buildVarMap config getwd osTempDir vmf).get "$path" = filepathDir (filepathClean vmf) ∧
    (buildVarMap config getwd osTempDir vmf).get "$mapdir" = filepathDir (filepathClean vmf) ∧
    (buildVarMap config getwd osTempDir vmf).get "$name" =
      (buildVarMap config getwd osTempDir vmf).get "$file" ∧
    (buildVarMap config getwd osTempDir vmf).get "$bsp" =
      filepathJoin [filepathDir (filepathClean vmf),
        (buildVarMap config getwd osTempDir vmf).get "$file" ++ ".bsp"] ∧
    (∀ stem ext : String, filepathBase (filepathClean vmf) = stem ++ "." ++ ext →
      stem ≠ "" → '.' ∉ ext.data →
      (buildVarMap config getwd osTempDir vmf).get "$file" = stem) ∧
    ('.' ∉ (filepathBase (filepathClean vmf)).data →
      (buildVarMap config getwd osTempDir vmf).get "$file" = filepathBase (filepathClean vmf)) := by
  have hdir := trimRight_filepathDir (filepathClean vmf) hroot
  refine ⟨?_, ?_, ?_, ?_, ?_, ?_, ?_, ?_⟩
  · simp [buildVarMap, GoMap.get, List.lookup, filepathAbs, habs]
  · simp [buildVarMap, GoMap.get, List.lookup, filepathAbs, habs, hdir]
  · simp [buildVarMap, GoMap.get, List.lookup, filepathAbs, habs, hdir]
  · simp [buildVarMap, GoMap.get, List.lookup, filepathAbs, habs, hdir]
  · simp [buildVarMap, GoMap.get, List.lookup]
  · simp [buildVarMap, GoMap.get, List.lookup, filepathAbs, habs, hdir]
  · intro stem ext hbase hstem hext
    have hdata : (filepathBase (filepathClean vmf)).data = stem.data ++ '.' :: ext.data := by
      rw [hbase]
      simp [String.data_append]
    have hlast := Chars.lastIndex_append stem.data ext.data '.' hext
    have hpos : stem.data.length > 0 := by
      cases hd : stem.data with
      | nil => exact absurd (String.ext hd) hstem
      | cons a l => simp
    simp only [buildVarMap, GoMap.get, List.lookup, filepathAbs, habs, if_true]
    simp [hdata, hlast]
    intro h0
    have h1 : stem.data.length = 0 := h0
    omega
  · intro hno
    have hlast := Chars.lastIndex_of_not_mem _ '.' hno
    simp only [buildVarMap, GoMap.get, List.lookup, filepathAbs, habs, if_true]
    simp [hlast]

/-- The function `clean` renders the stack it is left with. -/
theorem Chars.clean_eq_render (p : List Char) :
    Chars.clean p = Chars.render (['/'].isPrefixOf p)
      ((Chars.splitSep p).foldl (Chars.cleanStep (['/'].isPrefixOf p)) []).reverse := rfl

/-- The empty stack has the shape. -/
theorem Chars.canon_nil (r : Bool) : Chars.Canon r [] :=
  ⟨[], [], rfl, by simp, by simp, fun _ => rfl⟩

/-- One step of the clean-up keeps the shape of the stack. -/
theorem Chars.cleanStep_canon (r : Bool) (stack : List (List Char)) (e : List Char)
    (he : '/' ∉ e) (h : Chars.Canon r stack) : Chars.Canon r (Chars.cleanStep r stack e) := by
  obtain ⟨tops, dots, hs, ht, hd, hr⟩ := h
  subst hs
  unfold Chars.cleanStep
  by_cases h1 : e = [] ∨ e = ['.']
  · rw [if_pos h1]
    exact ⟨tops, dots, rfl, ht, hd, hr⟩
  · rw [if_neg h1]
    by_cases h2 : e = ['.', '.']
    · rw [if_pos h2]
      cases tops with
      | cons t ts =>
        have htt := ht t (by simp)
        simp only [List.cons_append, htt.2.2.1, if_false]
        exact ⟨ts, dots, rfl, fun x hx => ht x (List.mem_cons_of_mem _ hx), hd, hr⟩
      | nil =>
        cases dots with
        | nil =>
          cases r with
          | true => exact ⟨[], [], by simp, by simp, by simp, fun _ => rfl⟩
          | false =>
            exact ⟨[], [e], by simp, by simp, by simp [h2], by simp⟩
        | cons d ds =>
          have hdd := hd d (by simp)
          simp only [List.nil_append, hdd, if_true]
          refine ⟨[], e :: ['.', '.'] :: ds, by simp, by simp, ?_, ?_⟩
          · intro x hx
            simp only [List.mem_cons] at hx
            rcases hx with hx | hx | hx
            · rw [hx, h2]
            · exact hx
            · exact hd x (by simp [hx])
          · intro hrt
            have := hr hrt
            simp at this
    · rw [if_neg h2]
      refine ⟨e :: tops, dots, by simp, ?_, hd, hr⟩
      intro x hx
      simp only [List.mem_cons] at hx
      rcases hx with hx | hx
      · subst hx
        exact ⟨fun h => h1 (Or.inl h), fun h => h1 (Or.inr h), h2, he⟩
      · exact ht x hx

/-- The clean-up of a list of elements keeps the shape of the stack. -/
theorem Chars.foldl_cleanStep_canon (r : Bool) (es : List (List Char))
    (hes : ∀ e ∈ es, '/' ∉ e) :
    ∀ stack, Chars.Canon r stack → Chars.Canon r (es.foldl (Chars.cleanStep r) stack) := by
  induction es with
  | nil => intro stack h; exact h
  | cons e rest ih =>
    intro stack h
    rw [List.foldl_cons]
    exact ih (fun x hx => hes x (List.mem_cons_of_mem _ hx)) _
      (Chars.cleanStep_canon r stack e (hes e (by simp)) h)

/-- The elements of a stack of that shape are not empty, not `.`, without separator. -/
theorem Chars.canon_elems (r : Bool) (stack : List (List Char)) (h : Chars.Canon r stack) :
    ∀ x ∈ stack, x ≠ [] ∧ x ≠ ['.'] ∧ '/' ∉ x := by
  obtain ⟨tops, dots, hs, ht, hd, _⟩ := h
  subst hs
  intro x hx
  rcases List.mem_append.1 hx with hx | hx
  · have := ht x hx
    exact ⟨this.1, this.2.1, this.2.2.2⟩
  · rw [hd x hx]
    decide

/-- The clean-up pushes `..` elements onto a stack of `..` elements of a relative
path. -/
theorem Chars.foldl_cleanStep_dots (ds : List (List Char)) (hds : ∀ x ∈ ds, x = ['.', '.']) :
    ∀ acc : List (List Char), (∀ x ∈ acc, x = ['.', '.']) →
      ds.foldl (Chars.cleanStep false) acc = ds.reverse ++ acc := by
  induction ds with
  | nil => intro acc _; rfl
  | cons d rest ih =>
    intro acc hacc
    have hd := hds d (by simp)
    subst hd
    have hstep : Chars.cleanStep false acc ['.', '.'] = ['.', '.'] :: acc := by
      cases acc with
      | nil => simp [Chars.cleanStep]
      | cons a as =>
        have := hacc a (by simp)
        subst this
        simp [Chars.cleanStep]
    rw [List.foldl_cons, hstep, ih (fun x hx => hds x (List.mem_cons_of_mem _ hx))]
    · simp
    · intro x hx
      simp only [List.mem_cons] at hx
      rcases hx with hx | hx
      · exact hx
      · exact hacc x hx

/-- The clean-up pushes proper names onto any stack. -/
theorem Chars.foldl_cleanStep_names (r : Bool) (l : List (List Char))
    (hl : ∀ x ∈ l, x ≠ [] ∧ x ≠ ['.'] ∧ x ≠ ['.', '.'] ∧ '/' ∉ x) :
    ∀ acc : List (List Char), l.foldl (Chars.cleanStep r) acc = l.reverse ++ acc := by
  induction l with
  | nil => intro acc; rfl
  | cons e rest ih =>
    intro acc
    have he := hl e (by simp)
    have hstep : Chars.cleanStep r acc e = e :: acc := by
      simp [Chars.cleanStep, he.1, he.2.1, he.2.2.1]
    rw [List.foldl_cons, hstep, ih (fun x hx => hl x (List.mem_cons_of_mem _ hx))]
    simp

/-- Cleaning the elements of a stack of that shape again gives the same stack. -/
theorem Chars.foldl_cleanStep_replay (r : Bool) (stack : List (List Char))
    (h : Chars.Canon r stack) : stack.reverse.foldl (Chars.cleanStep r) [] = stack := by
  obtain ⟨tops, dots, hs, ht, hd, hr⟩ := h
  subst hs
  rw [List.reverse_append, List.foldl_append]
  have hdots : dots.reverse.foldl (Chars.cleanStep r) [] = dots := by
    cases r with
    | true =>
      rw [hr rfl]
      rfl
    | false =>
      rw [Chars.foldl_cleanStep_dots dots.reverse (fun x hx => hd x (by simpa using hx)) []
        (by simp)]
      simp
  rw [hdots, Chars.foldl_cleanStep_names r tops.reverse
    (fun x hx => ht x (by simpa using hx))]
  simp

/-- The elements of `x/t`, for a first element `x` without separator. -/
theorem Chars.splitSep_cons_elem (x t : List Char) (hx : '/' ∉ x) :
    Chars.splitSep (x ++ '/' :: t) = x :: Chars.splitSep t := by
  induction x with
  | nil => simp [Chars.splitSep]
  | cons a rest ih =>
    have ha : a ≠ '/' := fun e => hx (by simp [e])
    have hr : '/' ∉ rest := fun e => hx (by simp [e])
    have ih2 : Chars.splitSep (rest.append ('/' :: t)) = rest :: Chars.splitSep t := ih hr
    simp only [List.cons_append, Chars.splitSep, ha, if_false]
    rw [ih2]

/-- Splitting undoes joining, for elements without separator. -/
theorem Chars.splitSep_joinSep (ks : List (List Char)) (hne : ks ≠ [])
    (hks : ∀ e ∈ ks, '/' ∉ e) : Chars.splitSep (Chars.joinSep ks) = ks := by
  induction ks with
  | nil => exact absurd rfl hne
  | cons x rest ih =>
    cases rest with
    | nil => exact Chars.splitSep_of_not_mem x (hks x (by simp))
    | cons y ys =>
      simp only [Chars.joinSep]
      rw [Chars.splitSep_cons_elem x _ (hks x (by simp)),
        ih (by simp) (fun e he => hks e (List.mem_cons_of_mem _ he))]

/-- Joining one more element at the end. -/
theorem Chars.joinSep_snoc (ks : List (List Char)) (c : List Char) (hne : ks ≠ []) :
    Chars.joinSep (ks ++ [c]) = Chars.joinSep ks ++ '/' :: c := by
  induction ks with
  | nil => exact absurd rfl hne
  | cons x rest ih =>
    cases rest with
    | nil => simp [Chars.joinSep]
    | cons y ys =>
      have := ih (by simp)
      simp only [List.cons_append] at this
      simp [Chars.joinSep, this]

/-- The joined elements start with the first character of the first element. -/
theorem Chars.joinSep_head (a : Char) (x : List Char) (rest : List (List Char)) :
    ∃ t, Chars.joinSep ((a :: x) :: rest) = a :: t := by
  cases rest with
  | nil => exact ⟨x, rfl⟩
  | cons y ys => exact ⟨x ++ '/' :: Chars.joinSep (y :: ys), rfl⟩

/-- What a rendered stack looks like: the root, `.`, or the joined elements after the
root mark, which start with a separator exactly in a rooted path. -/
theorem Chars.render_cases (r : Bool) (stack : List (List Char)) (h : Chars.Canon r stack) :
    (stack = [] ∧ r = true ∧ Chars.render r stack.reverse = ['/']) ∨
    (stack = [] ∧ r = false ∧ Chars.render r stack.reverse = ['.']) ∨
    (stack ≠ [] ∧ r = true ∧ Chars.render r stack.reverse = '/' :: Chars.joinSep stack.reverse) ∨
    (stack ≠ [] ∧ r = false ∧ Chars.render r stack.reverse = Chars.joinSep stack.reverse ∧
      ∃ a t, a ≠ '/' ∧ Chars.joinSep stack.reverse = a :: t) := by
  cases hs : stack with
  | nil =>
    cases r with
    | true => exact Or.inl ⟨rfl, rfl, by simp [Chars.render, Chars.joinSep]⟩
    | false => exact Or.inr (Or.inl ⟨rfl, rfl, by simp [Chars.render, Chars.joinSep]⟩)
  | cons s ss =>
    cases r with
    | true =>
      exact Or.inr (Or.inr (Or.inl ⟨by simp, rfl, by simp [Chars.render]⟩))
    | false =>
      have hrev : (s :: ss).reverse ≠ [] := by simp
      obtain ⟨x, rest, hx⟩ := List.exists_cons_of_ne_nil hrev
      have hxmem : x ∈ stack := by
        rw [hs]
        have : x ∈ (s :: ss).reverse := by rw [hx]; simp
        exact List.mem_reverse.1 this
      have hel := Chars.canon_elems false stack h x hxmem
      obtain ⟨a, x2, hax⟩ := List.exists_cons_of_ne_nil hel.1
      have ha : a ≠ '/' := fun e => hel.2.2 (by rw [hax, e]; simp)
      obtain ⟨t, ht⟩ := Chars.joinSep_head a x2 rest
      refine Or.inr (Or.inr (Or.inr ⟨by simp, rfl, ?_, a, t, ha, ?_⟩))
      · rw [hx, hax]
        simp [Chars.render, ht]
      · rw [hx, hax, ht]

/-- A rendered stack, read again: it is rooted when the stack was, and its elements
clean up to the same stack. -/
theorem Chars.render_reread (r : Bool) (stack : List (List Char)) (h : Chars.Canon r stack) :
    (∀ t, ['/'].isPrefixOf (Chars.render r stack.reverse ++ t) = r) ∧
    (Chars.splitSep (Chars.render r stack.reverse)).foldl (Chars.cleanStep r) [] = stack := by
  have hel := Chars.canon_elems r stack h
  have hK : ∀ e ∈ stack.reverse, '/' ∉ e := fun e he => (hel e (List.mem_reverse.1 he)).2.2
  rcases Chars.render_cases r stack h with ⟨hs, hr, hd⟩ | ⟨hs, hr, hd⟩ | ⟨hs, hr, hd⟩ |
    ⟨hs, hr, hd, a, t2, ha, hj⟩
  · subst hr
    rw [hd, hs]
    exact ⟨fun t => by simp [List.isPrefixOf], by simp [Chars.splitSep, Chars.cleanStep]⟩
  · subst hr
    rw [hd, hs]
    exact ⟨fun t => by simp [List.isPrefixOf], by simp [Chars.splitSep, Chars.cleanStep]⟩
  · subst hr
    have hne : stack.reverse ≠ [] := by simpa using hs
    rw [hd]
    refine ⟨fun t => by simp [List.isPrefixOf], ?_⟩
    have hsplit : Chars.splitSep ('/' :: Chars.joinSep stack.reverse) = [] :: stack.reverse := by
      simp [Chars.splitSep, Chars.splitSep_joinSep stack.reverse hne hK]
    rw [hsplit, List.foldl_cons]
    have h0 : Chars.cleanStep true [] [] = [] := by simp [Chars.cleanStep]
    rw [h0]
    exact Chars.foldl_cleanStep_replay true stack h
  · subst hr
    have hne : stack.reverse ≠ [] := by simpa using hs
    rw [hd]
    refine ⟨fun t => ?_, ?_⟩
    · rw [hj]
      have ha2 : ¬ '/' = a := fun e => ha e.symm
      simp [List.isPrefixOf, ha2]
    · rw [Chars.splitSep_joinSep stack.reverse hne hK]
      exact Chars.foldl_cleanStep_replay false stack h

/-- Cleaning a cleaned path followed by a separator and one more element: the element
is cleaned onto the same stack. -/
theorem Chars.clean_render_child (r : Bool) (stack : List (List Char))
    (h : Chars.Canon r stack) (t : List Char) (ht : '/' ∉ t) :
    Chars.clean (Chars.render r stack.reverse ++ '/' :: t) =
      Chars.render r (Chars.cleanStep r stack t).reverse := by
  obtain ⟨h1, h2⟩ := Chars.render_reread r stack h
  rw [Chars.clean_eq_render, h1, Chars.splitSep_append _ t ht, List.foldl_append, h2]
  rfl

/-- Every cleaned path is the rendering of a stack of the shape. -/
theorem Chars.clean_canon (q : List Char) :
    ∃ r stack, Chars.Canon r stack ∧ Chars.clean q = Chars.render r stack.reverse :=
  ⟨['/'].isPrefixOf q, (Chars.splitSep q).foldl (Chars.cleanStep (['/'].isPrefixOf q)) [],
    Chars.foldl_cleanStep_canon _ _ (Chars.splitSep_no_sep q) [] (Chars.canon_nil _),
    Chars.clean_eq_render q⟩

/-- A cleaned path followed by a separator cleans to itself. -/
theorem Chars.clean_clean_slash (q : List Char) :
    Chars.clean (Chars.clean q ++ ['/']) = Chars.clean q := by
  obtain ⟨r, stack, hc, hq⟩ := Chars.clean_canon q
  rw [hq, Chars.clean_render_child r stack hc [] (by simp)]
  simp [Chars.cleanStep]

/-- The part of `q/c` before its last element is `q/`, for an element `c` without
separator; and a path without separator has nothing before its last element. -/
theorem Chars.dropLast_elem (q c : List Char) (hc : '/' ∉ c) :
    ((q ++ '/' :: c).reverse.dropWhile (fun x => x ≠ '/')).reverse = q ++ ['/'] ∧
    (c.reverse.dropWhile (fun x => x ≠ '/')).reverse = [] := by
  have hall : ∀ x ∈ c.reverse, (decide (x ≠ '/')) = true := by
    intro x hx
    have : x ∈ c := by simpa using hx
    simpa using fun e : x = '/' => hc (e ▸ this)
  constructor
  · have hrev : (q ++ '/' :: c).reverse = c.reverse ++ '/' :: q.reverse := by simp
    rw [hrev, List.dropWhile_append_of_pos hall]
    simp
  · rw [List.dropWhile_eq_nil_iff.2 hall]
    rfl

/-- A plain file name joined to a cleaned path lies in that path: the directory of the
result is the cleaned path again. -/
theorem Chars.dir_join_clean (q c : List Char) (h0 : c ≠ []) (h1 : c ≠ ['.'])
    (h2 : c ≠ ['.', '.']) (hs : '/' ∉ c) :
    Chars.dir (Chars.join [Chars.clean q, c]) = Chars.clean q := by
  have hjoin : Chars.join [Chars.clean q, c] = Chars.clean (Chars.clean q ++ '/' :: c) := by
    simp [Chars.join, Chars.clean_ne_nil q, Chars.joinSep]
  obtain ⟨r, stack, hc, hq⟩ := Chars.clean_canon q
  have hstep : Chars.cleanStep r stack c = c :: stack := by
    simp [Chars.cleanStep, h0, h1, h2]
  have hchild : Chars.clean (Chars.clean q ++ '/' :: c) =
      Chars.render r (stack.reverse ++ [c]) := by
    rw [hq, Chars.clean_render_child r stack hc c hs, hstep, List.reverse_cons]
  rw [hjoin, hchild]
  rcases Chars.render_cases r stack hc with ⟨hst, hr, hd⟩ | ⟨hst, hr, hd⟩ | ⟨hst, hr, hd⟩ |
    ⟨hst, hr, hd, _⟩
  · subst hr
    subst hst
    have hx : Chars.render true ([].reverse ++ [c]) = [] ++ '/' :: c := by
      simp [Chars.render, Chars.joinSep]
    rw [hx, hq, hd]
    simp only [Chars.dir]
    rw [(Chars.dropLast_elem [] c hs).1]
    decide
  · subst hr
    subst hst
    have hx : Chars.render false ([].reverse ++ [c]) = c := by
      simp [Chars.render, Chars.joinSep, h0]
    rw [hx, hq, hd]
    simp only [Chars.dir]
    rw [(Chars.dropLast_elem [] c hs).2]
    decide
  · subst hr
    have hne : stack.reverse ≠ [] := by simpa using hst
    have hx : Chars.render true (stack.reverse ++ [c]) =
        Chars.render true stack.reverse ++ '/' :: c := by
      rw [hd]
      simp [Chars.render, Chars.joinSep_snoc stack.reverse c hne]
    rw [hx, ← hq]
    simp only [Chars.dir]
    rw [(Chars.dropLast_elem (Chars.clean q) c hs).1]
    exact Chars.clean_clean_slash q
  · subst hr
    have hne : stack.reverse ≠ [] := by simpa using hst
    have hx : Chars.render false (stack.reverse ++ [c]) =
        Chars.render false stack.reverse ++ '/' :: c := by
      rw [hd]
      simp [Chars.render, Chars.joinSep_snoc stack.reverse c hne]
    rw [hx, ← hq]
    simp only [Chars.dir]
    rw [(Chars.dropLast_elem (Chars.clean q) c hs).1]
    exact Chars.clean_clean_slash q

/-- A plain file name joined to the directory of a path lies in that directory and
keeps its name. -/
theorem filepath_join_dir (p name : String) (h0 : name ≠ "") (h1 : name ≠ ".")
    (h2 : name ≠ "..") (hs : '/' ∉ name.data) :
    filepathDir (filepathJoin [filepathDir p, name]) = filepathDir p ∧
    filepathBase (filepathJoin [filepathDir p, name]) = name := by
  have d0 : name.data ≠ [] := fun e => h0 (String.ext e)
  have d1 : name.data ≠ ['.'] := fun e => h1 (String.ext e)
  have d2 : name.data ≠ ['.', '.'] := fun e => h2 (String.ext e)
  constructor
  · simp only [filepathDir, filepathJoin, List.map_cons, List.map_nil]
    exact congrArg String.mk (Chars.dir_join_clean _ name.data d0 d1 d2 hs)
  · simp only [filepathBase, filepathJoin, List.map_cons, List.map_nil]
    exact congrArg String.mk (Chars.base_join _ name.data hs d0 d1 d2)

/-- The extension of a name without separator that ends in a dot and a dot-free rest;
and the extension of a name without dot. -/
theorem Chars.ext_append (s e : List Char) (hs : '/' ∉ s) (he : '/' ∉ e) (hd : '.' ∉ e) :
    Chars.ext (s ++ '.' :: e) = '.' :: e := by
  have hall : ∀ x ∈ (s ++ '.' :: e).reverse, (decide (x ≠ '/')) = true := by
    intro x hx
    have hm : x ∈ s ++ '.' :: e := List.mem_reverse.1 hx
    have hne : x ≠ '/' := by
      intro h
      subst h
      rcases List.mem_append.1 hm with h1 | h1
      · exact hs h1
      · simp only [List.mem_cons] at h1
        rcases h1 with h1 | h1
        · cases h1
        · exact he h1
    simpa using hne
  have hdot : ∀ x ∈ e.reverse, (decide (x ≠ '.')) = true := by
    intro x hx
    have : x ∈ e := by simpa using hx
    simpa using fun h : x = '.' => hd (h ▸ this)
  have hmem : '.' ∈ (s ++ '.' :: e).reverse := by simp
  have hrev : (s ++ '.' :: e).reverse = e.reverse ++ '.' :: s.reverse := by simp
  simp only [Chars.ext, List.takeWhile_eq_self_iff.2 hall, hmem, if_true]
  rw [hrev, List.takeWhile_append_of_pos hdot]
  simp

/-- A name without dot has no extension. -/
theorem Chars.ext_of_no_dot (b : List Char) (h : '.' ∉ b) : Chars.ext b = [] := by
  have hno : '.' ∉ b.reverse.takeWhile (fun c => c ≠ '/') := by
    intro hm
    exact h (List.mem_reverse.1 (List.takeWhile_subset _ hm))
  simp only [Chars.ext, hno, if_false]

/-- C11 (the message on which it fails). The input is `maps/test.vmf`; a `bsp` message
declares the name `../evil.bsp` and carries a payload that decodes.  The client writes
the bytes to `evil.bsp`, whose directory is `.`, not the directory `maps` of the input;
it then keeps listening and reads the next message, `done`. -/
theorem client_writes_outside_input_dir :
    receive sampleDecode "maps/test.vmf"
        [Incoming.bsp "../evil.bsp" "TWFu", Incoming.typed "done" ""] =
      { writes := [("evil.bsp", [77, 97, 110])], read := 2 } ∧
    filepathDir "evil.bsp" = "." ∧ filepathDir "maps/test.vmf" = "maps" ∧
    filepathDir (artifactPath "maps/test.vmf" "../evil.bsp") ≠ filepathDir "maps/test.vmf" := by
  decide

/-- For a plain file name C11 holds.  A `bsp` message whose payload decodes makes the
client write the decoded bytes and go on with the messages that follow.  When the
declared name is a plain file name (not empty, not `.` or `..`, without separator) the
file is written in the directory of the input under that name.  When no name is
declared (and the input is not the root directory) it is written in the directory of
the input under `<stem>.bsp`, with `<stem>` the base name of the input up to its last
dot when something stands before that dot, and the whole base name when it has no
dot. -/
theorem client_writes_beside_input (decode : String → Option (List UInt8))
    (vmfPath name data : String) (bytes : List UInt8) (rest : List Incoming)
    (hdec : decode data = some bytes) :
    receive decode vmfPath (Incoming.bsp name data :: rest) =
      { writes := (artifactPath vmfPath name, bytes) :: (receive decode vmfPath rest).writes,
        read := (receive decode vmfPath rest).read + 1 } ∧
    (name ≠ "" → name ≠ "." → name ≠ ".." → '/' ∉ name.data →
      filepathDir (artifactPath vmfPath name) = filepathDir vmfPath ∧
      filepathBase (artifactPath vmfPath name) = name) ∧
    (name = "" → filepathBase vmfPath ≠ "/" →
      filepathDir (artifactPath vmfPath name) = filepathDir vmfPath ∧
      (∀ stem ext : String, filepathBase vmfPath = stem ++ "." ++ ext → stem ≠ "" →
        '.' ∉ ext.data → filepathBase (artifactPath vmfPath name) = stem ++ ".bsp") ∧
      ('.' ∉ (filepathBase vmfPath).data →
        filepathBase (artifactPath vmfPath name) = filepathBase vmfPath ++ ".bsp")) := by
  refine ⟨by simp [receive, hdec], ?_, ?_⟩
  · intro h0 h1 h2 hs
    simp only [artifactPath, h0, if_false]
    exact filepath_join_dir vmfPath name h0 h1 h2 hs
  · intro hname hbase
    subst hname
    have hnosep : '/' ∉ (filepathBase vmfPath).data := by
      rcases Chars.base_no_sep vmfPath.data with hb | hb
      · exact absurd (String.ext hb) hbase
      · exact hb
    have hplain : ∀ stem : String, '/' ∉ stem.data →
        filepathDir (filepathJoin [filepathDir vmfPath, stem ++ ".bsp"]) = filepathDir vmfPath ∧
        filepathBase (filepathJoin [filepathDir vmfPath, stem ++ ".bsp"]) = stem ++ ".bsp" := by
      intro stem hstem
      have hc : (stem ++ ".bsp").data = stem.data ++ ['.', 'b', 's', 'p'] := by
        rw [String.data_append]
      have hlen : (stem ++ ".bsp").data.length ≥ 4 := by simp [hc]
      have hne : ∀ l : List Char, l.length < 4 → stem ++ ".bsp" ≠ String.mk l := by
        intro l hl e
        rw [e] at hlen
        simp at hlen
        omega
      exact filepath_join_dir vmfPath (stem ++ ".bsp") (hne [] (by simp)) (hne ['.'] (by simp))
        (hne ['.', '.'] (by simp)) (by rw [hc]; simp [hstem])
    have hstemsep : '/' ∉ (if (filepathBase vmfPath).length
          - (filepathExt (filepathBase vmfPath)).length > 0 then
        String.mk ((filepathBase vmfPath).data.take ((filepathBase vmfPath).length
          - (filepathExt (filepathBase vmfPath)).length))
        else filepathBase vmfPath).data := by
      split
      · exact fun hm => hnosep (List.mem_of_mem_take hm)
      · exact hnosep
    simp only [artifactPath, if_true]
    refine ⟨(hplain _ hstemsep).1, ?_, ?_⟩
    · intro stem ext hb hstem hext
      rw [(hplain _ hstemsep).2]
      have hdata : (filepathBase vmfPath).data = stem.data ++ '.' :: ext.data := by
        rw [hb]
        simp [String.data_append]
      have hs1 : '/' ∉ stem.data := fun hm => hnosep (by rw [hdata]; simp [hm])
      have hs2 : '/' ∉ ext.data := fun hm => hnosep (by rw [hdata]; simp [hm])
      have hext2 : (filepathExt (filepathBase vmfPath)).data = '.' :: ext.data := by
        simp only [filepathExt, hdata]
        exact Chars.ext_append stem.data ext.data hs1 hs2 hext
      have hpos : stem.data.length > 0 := by
        cases hd : stem.data with
        | nil => exact absurd (String.ext hd) hstem
        | cons a l => simp
      have hdot : (filepathBase vmfPath).length - (filepathExt (filepathBase vmfPath)).length
          = stem.data.length := by
        show (filepathBase vmfPath).data.length
          - (filepathExt (filepathBase vmfPath)).data.length = _
        rw [hext2, hdata]
        simp only [List.length_append, List.length_cons]
        omega
      rw [hdot, if_pos hpos, hdata]
      simp
    · intro hno
      rw [(hplain _ hstemsep).2]
      have hext2 : (filepathExt (filepathBase vmfPath)).data = [] := by
        simp only [filepathExt]
        exact Chars.ext_of_no_dot _ hno
      have hlen : (filepathExt (filepathBase vmfPath)).length = 0 := by
        show (filepathExt (filepathBase vmfPath)).data.length = 0
        rw [hext2]
        rfl
      have htake : String.mk ((filepathBase vmfPath).data.take (filepathBase vmfPath).length)
          = filepathBase vmfPath := by
        show String.mk (List.take (filepathBase vmfPath).data.length _) = _
        rw [List.take_length]
      rw [hlen, Nat.sub_zero]
      split
      · rw [htake]
      · rfl

/-- Every process the loop starts is the command of one of its steps, at the place of
that step, with the path configured for its program. -/
theorem runSteps_spawned (config : Config) (w : World) (vars : GoMap String)
    (steps : List Step) : ∀ (k : Nat) (c : Cmd), c ∈ (runSteps config w vars k steps).spawned →
      ∃ j step, steps[j]? = some step ∧ config.Programs.get step.Program ≠ "" ∧
        c = stepCmd config w vars (k + j) step (config.Programs.get step.Program) := by
  induction steps with
  | nil => intro k c hc; simp [runSteps] at hc
  | cons s rest ih =>
    intro k c hc
    cases hok : stepSucceeds config w vars k s with
    | true =>
      have hp : config.Programs.get s.Program ≠ "" := by
        intro e
        simp [stepSucceeds, e] at hok
      rw [(runSteps_cons_ok config w vars k s rest hok).2.1, List.mem_cons] at hc
      rcases hc with hc | hc
      · exact ⟨0, s, by simp, hp, by simpa using hc⟩
      · obtain ⟨j, step, h1, h2, h3⟩ := ih (k + 1) c hc
        refine ⟨j + 1, step, by simpa using h1, h2, ?_⟩
        have e : k + (j + 1) = k + 1 + j := by omega
        rw [e]
        exact h3
    | false =>
      rw [(runSteps_cons_fail config w vars k s rest hok).2.1] at hc
      by_cases hp : config.Programs.get s.Program = ""
      · simp [stepSpawn, hp] at hc
      · refine ⟨0, s, by simp, hp, ?_⟩
        simp only [stepSpawn, hp, if_false] at hc
        cases hproc : w.proc k (stepCmd config w vars k s (config.Programs.get s.Program)) with
        | stdoutPipeErr e => simp [hproc] at hc
        | stderrPipeErr e => simp [hproc] at hc
        | startErr e => simpa [hproc] using hc
        | ran lines waitErr => simpa [hproc] using hc

/-- C5. The command of a step, as `handleSocket` hands it to the process: when the
resolved executable ends in `.exe`, whatever the case of its letters, on a Linux host,
the process invoked is the configured wrapper (`wine` when none is configured) and its
arguments are the resolved executable followed by the expanded arguments in their
order, each argument that begins with `/` rewritten to `Z:\` followed by the argument
without its first character and with every `/` replaced by `\`, every other argument
unchanged; in every other case the executable and the expanded arguments are used as
they are.  And every process a session starts is such a command: that of a step of the
preset, built from the path configured for its program and from its arguments expanded
with the variables of the session. -/
theorem step_command_wine (config : Config) (store : PresetStore) (w : World)
    (req : CompileRequest) :
    (∀ (vars : GoMap String) (i : Nat) (step : Step) (progPath : String),
      (w.goos = "linux" ∧
          hasSuffix (toLower (resolveProgramPath config (w.stat i) progPath)) ".exe" = true →
        (stepCmd config w vars i step progPath).name =
          (if config.WinePath = "" then "wine" else config.WinePath) ∧
        (stepCmd config w vars i step progPath).args =
          resolveProgramPath config (w.stat i) progPath ::
            (expandArgs step.Args vars).map (fun a =>
              if hasPrefix a "/" then
                "Z:\\" ++ replaceAll (String.mk (a.data.drop 1)) "/" "\\"
              else a)) ∧
      (¬ (w.goos = "linux" ∧
          hasSuffix (toLower (resolveProgramPath config (w.stat i) progPath)) ".exe" = true) →
        (stepCmd config w vars i step progPath).name =
          resolveProgramPath config (w.stat i) progPath ∧
        (stepCmd config w vars i step progPath).args = expandArgs step.Args vars)) ∧
    (∀ c ∈ (handleSocket config store w req).spawned,
      ∃ st j step, startSession config store w req = .ok st ∧
        st.preset.Steps[j]? = some step ∧ config.Programs.get step.Program ≠ "" ∧
        c = stepCmd config w (buildVarMap config w.getwd w.tempDir st.vmfPath) j step
          (config.Programs.get step.Program)) := by
  constructor
  · intro vars i step progPath
    have hw := commandLine_wine config w.goos (resolveProgramPath config (w.stat i) progPath)
      (expandArgs step.Args vars)
    constructor
    · intro h
      have := hw.1 h
      constructor <;> simp only [stepCmd, this]
    · intro h
      have := hw.2 h
      constructor <;> simp only [stepCmd, this]
  · intro c hc
    cases hst : startSession config store w req with
    | error s =>
      have hs : handleSocket config store w req = s := by simp [handleSocket, hst]
      rw [hs, (startSession_error config store w req s hst).2] at hc
      simp at hc
    | ok st =>
      rw [handleSocket_started config store w req st hst] at hc
      simp only [(compile_cases config w st.vmfPath st.preset).1] at hc
      obtain ⟨j, step, h1, h2, h3⟩ := runSteps_spawned config w _ st.preset.Steps 0 c hc
      exact ⟨st, j, step, rfl, h1, h2, by simpa using h3⟩

/-- Witness of C5: on Linux the step `vbsp -game $vmf`, configured as `/tools/VBSP.exe`,
for the input `map.vmf` in `/home/user`, is started as `wine /tools/VBSP.exe -game
Z:\home\user\map.vmf`; this is the one process of the session. -/
theorem step_command_wine_witness :
    (stepCmd wineConfig wineWorld
        (buildVarMap wineConfig wineWorld.getwd wineWorld.tempDir "map.vmf") 0
        { Program := "vbsp", Args := ["-game", "$vmf"] } "/tools/VBSP.exe").args =
      ["/tools/VBSP.exe", "-game", "Z:\\home\\user\\map.vmf"] ∧
    (handleSocket wineConfig wineStore wineWorld wineRequest).spawned =
      [{ name := "wine", args := ["/tools/VBSP.exe", "-game", "Z:\\home\\user\\map.vmf"],
         dir := "/tools", wineDebug := true }] ∧
    ∃ st j step, startSession wineConfig wineStore wineWorld wineRequest = .ok st ∧
      st.preset.Steps[j]? = some step ∧ wineConfig.Programs.get step.Program ≠ "" ∧
      ({ name := "wine", args := ["/tools/VBSP.exe", "-game", "Z:\\home\\user\\map.vmf"],
         dir := "/tools", wineDebug := true } : Cmd) =
        stepCmd wineConfig wineWorld
          (buildVarMap wineConfig wineWorld.getwd wineWorld.tempDir st.vmfPath) j step
          (wineConfig.Programs.get step.Program) :=
  ⟨(((step_command_wine wineConfig wineStore wineWorld wineRequest).1
      (buildVarMap wineConfig wineWorld.getwd wineWorld.tempDir "map.vmf") 0
      { Program := "vbsp", Args := ["-game", "$vmf"] } "/tools/VBSP.exe").1
      (by decide)).2.trans (by decide),
   by decide,
   (step_command_wine wineConfig wineStore wineWorld wineRequest).2
     { name := "wine", args := ["/tools/VBSP.exe", "-game", "Z:\\home\\user\\map.vmf"],
       dir := "/tools", wineDebug := true } (by decide)⟩

/-- C2 as stated fails for the root directory as input.  The request names the input
`/` and carries no upload; both steps succeed and the artifact `/.bsp` is readable.  The
file stem `$file` is `/`, and the `bsp` message is named `.bsp`, not `<stem>.bsp`. -/
theorem root_input_artifact_name :
    startSession sampleConfig sampleStore sampleWorld { sampleRequest with VMF := "/" } =
      .ok { preset := samplePreset, vmfPath := "/", tmpDir := none, sent := [] } ∧
    (buildVarMap sampleConfig sampleWorld.getwd sampleWorld.tempDir "/").get "$file" = "/" ∧
    (buildVarMap sampleConfig sampleWorld.getwd sampleWorld.tempDir "/").get "$bsp" = "/.bsp" ∧
    stepSucceeds sampleConfig sampleWorld
      (buildVarMap sampleConfig sampleWorld.getwd sampleWorld.tempDir "/") 0
      { Program := "vbsp", Args := ["$vmf"] } = true ∧
    stepSucceeds sampleConfig sampleWorld
      (buildVarMap sampleConfig sampleWorld.getwd sampleWorld.tempDir "/") 1
      { Program := "vrad", Args := ["$bsp"] } = true ∧
    (handleSocket sampleConfig sampleStore sampleWorld
        { sampleRequest with VMF := "/" }).sent.filter (fun m => !m.isInfo && !m.isOutput) =
      [Msg.stepDone "vbsp", Msg.stepDone "vrad", Msg.bsp ".bsp" "TWFu", Msg.done] ∧
    (handleSocket sampleConfig sampleStore sampleWorld
        { sampleRequest with VMF := "/" }).sent.filter (fun m => !m.isInfo && !m.isOutput) ≠
      samplePreset.Steps.map (fun s => Msg.stepDone s.Program)
        ++ [Msg.bsp ((buildVarMap sampleConfig sampleWorld.getwd sampleWorld.tempDir "/").get
              "$file" ++ ".bsp") (base64Encode [77, 97, 110]), Msg.done] := by
  refine ⟨by rfl, by decide, by decide, by decide, by decide, by decide, by decide⟩

end MapRelay
